import Mathlib

/-!
Verification of the json-analyzer type-inference and declaration-emission
program (src/main.rs).

The Rust `DataType` enum stores object fields in a `BTreeMap<String, DataType>`
and variant options in a `BTreeSet<DataType>`.  Both containers are modelled
here as association lists / lists kept sorted in the order of the derived Rust
`Ord` instance (constructor order, then payload; maps and sets compared
lexicographically in iteration order; `String` compared byte-lexicographically,
which for UTF-8 agrees with codepoint order).  `f64` JSON numbers are modelled
as rationals; the `float == float.floor()` test of the source becomes
`q = ⌊q⌋`.
-/

/-! ## Byte-lexicographic string order (Rust `Ord for String`) -/

/-- Lexicographic strict order on character lists, by codepoint. -/
def charsLt : List Char → List Char → Bool
  | _, [] => false
  | [], _ :: _ => true
  | a :: as, b :: bs => a.toNat < b.toNat || (a = b && charsLt as bs)

/-- Rust's `String` order: lexicographic on the characters. -/
def strLt (a b : String) : Bool := charsLt a.data b.data

/-- Three-way comparison on character lists, by codepoint. -/
def charsCmp : List Char → List Char → Ordering
  | [], [] => .eq
  | [], _ :: _ => .lt
  | _ :: _, [] => .gt
  | a :: as, b :: bs =>
    if a.toNat < b.toNat then .lt
    else if b.toNat < a.toNat then .gt
    else charsCmp as bs

/-- Rust's `String` three-way comparison. -/
def strCmp (a b : String) : Ordering := charsCmp a.data b.data

/-! ## The data model (`enum DataType` of the source) -/

/-- Types of data in a JSON structure (mirrors `enum DataType` in
src/main.rs, constructors in source order so that the modelled `Ord`
agrees with the derived Rust one). -/
inductive DataType where
  /-- Data that is always Null. -/
  | null
  /-- A string of characters. -/
  | string
  /-- A number that must always be an integer. -/
  | int
  /-- A number that can be either a float or an integer. -/
  | float
  /-- A boolean. -/
  | bool
  /-- A heterogeneous data structure with named elements
  (`Object(BTreeMap<String, DataType>)`, modelled as a key-sorted
  association list). -/
  | object (fields : List (String × DataType))
  /-- An array of elements with the same type. -/
  | array (elem : DataType)
  /-- One of several possible types (`Variant(BTreeSet<DataType>)`,
  modelled as a sorted list).  An empty Variant also represents an
  unknown type. -/
  | variant (options : List DataType)

/-! Structural equality (the derived `PartialEq`/`Eq` of the source). -/

mutual
/-- Structural equality test on `DataType` (Rust's derived `==`). -/
def DataType.beq : DataType → DataType → Bool
  | .null, .null => true
  | .string, .string => true
  | .int, .int => true
  | .float, .float => true
  | .bool, .bool => true
  | .object a, .object b => beqFields a b
  | .array a, .array b => DataType.beq a b
  | .variant a, .variant b => beqOptions a b
  | _, _ => false

/-- Structural equality of field maps, in iteration order. -/
def beqFields : List (String × DataType) → List (String × DataType) → Bool
  | [], [] => true
  | (k, v) :: r, (k', v') :: r' => k = k' && DataType.beq v v' && beqFields r r'
  | _, _ => false

/-- Structural equality of option sets, in iteration order. -/
def beqOptions : List DataType → List DataType → Bool
  | [], [] => true
  | v :: r, v' :: r' => DataType.beq v v' && beqOptions r r'
  | _, _ => false
end

/-- Constructor index of a `DataType`, in source declaration order
(used by the derived `Ord`). -/
def DataType.ctorIdx : DataType → Nat
  | .null => 0
  | .string => 1
  | .int => 2
  | .float => 3
  | .bool => 4
  | .object _ => 5
  | .array _ => 6
  | .variant _ => 7

mutual
/-- Three-way comparison on `DataType` (Rust's derived `Ord`):
constructor order first, then the payload; `BTreeMap`/`BTreeSet`
payloads compare lexicographically in iteration order. -/
def DataType.cmp : DataType → DataType → Ordering
  | .object a, .object b => cmpFields a b
  | .array a, .array b => DataType.cmp a b
  | .variant a, .variant b => cmpOptions a b
  | a, b =>
    if a.ctorIdx < b.ctorIdx then .lt
    else if b.ctorIdx < a.ctorIdx then .gt
    else .eq

/-- Lexicographic comparison of field maps: each `(key, value)` pair
compares key first, then value. -/
def cmpFields : List (String × DataType) → List (String × DataType) → Ordering
  | [], [] => .eq
  | [], _ :: _ => .lt
  | _ :: _, [] => .gt
  | (k, v) :: r, (k', v') :: r' =>
    match strCmp k k' with
    | .eq =>
      match DataType.cmp v v' with
      | .eq => cmpFields r r'
      | o => o
    | o => o

/-- Lexicographic comparison of option sets. -/
def cmpOptions : List DataType → List DataType → Ordering
  | [], [] => .eq
  | [], _ :: _ => .lt
  | _ :: _, [] => .gt
  | v :: r, v' :: r' =>
    match DataType.cmp v v' with
    | .eq => cmpOptions r r'
    | o => o
end

/-! ## `BTreeSet<DataType>` and `BTreeMap<String, DataType>` operations -/

/-- Ordered insertion into a `BTreeSet<DataType>` model: an element
comparing equal to an existing one leaves the set unchanged. -/
def insertSet (t : DataType) : List DataType → List DataType
  | [] => [t]
  | u :: rest =>
    match DataType.cmp t u with
    | .lt => t :: u :: rest
    | .eq => u :: rest
    | .gt => u :: insertSet t rest

/-- `collect::<BTreeSet<DataType>>()` on an iterator: fold the elements
into the set in iteration order. -/
def setFromList (l : List DataType) : List DataType :=
  l.foldl (fun acc t => insertSet t acc) []

/-- Ordered insertion into a `BTreeMap<String, DataType>` model: a key
already present has its value replaced. -/
def insertMap (k : String) (v : DataType) : List (String × DataType) → List (String × DataType)
  | [] => [(k, v)]
  | (k', v') :: rest =>
    if strLt k k' then (k, v) :: (k', v') :: rest
    else if k = k' then (k, v) :: rest
    else (k', v') :: insertMap k v rest

/-- `collect::<BTreeMap<String, DataType>>()` on an iterator of pairs. -/
def mapFromList (l : List (String × DataType)) : List (String × DataType) :=
  l.foldl (fun acc p => insertMap p.1 p.2 acc) []

/-- `BTreeMap::contains_key`. -/
def containsKey (k : String) : List (String × DataType) → Bool
  | [] => false
  | p :: rest => p.1 = k || containsKey k rest

/-- Map lookup (`BTreeMap::get`), first matching key. -/
def lookupM (k : String) : List (String × DataType) → Option DataType
  | [] => none
  | p :: rest => if p.1 = k then some p.2 else lookupM k rest

/-- `BTreeMap::remove`: returns the removed value (if any) and the
remaining map. -/
def removeKey (k : String) : List (String × DataType) → Option DataType × List (String × DataType)
  | [] => (none, [])
  | p :: rest =>
    if p.1 = k then (some p.2, rest)
    else
      let r := removeKey k rest
      (r.1, p :: r.2)

/-- Membership test of a `BTreeSet<DataType>` (`BTreeSet::contains`),
by structural equality. -/
def containsType (l : List DataType) (t : DataType) : Bool :=
  l.any (fun u => DataType.beq u t)

/-- The pairing loop of the `Object`/`Object` branch of `unify`:
walk the fields of `a` in order, removing (`BTreeMap::remove`) the
matching entry from `shared` if present (defaulting to `Null`), and
return the paired-up fields together with the residual `shared` map. -/
def pairFields : List (String × DataType) → List (String × DataType) →
    List (String × DataType × DataType) × List (String × DataType)
  | [], shared => ([], shared)
  | (k, v) :: rest, shared =>
    let r := removeKey k shared
    let pr := pairFields rest r.2
    ((k, v, r.1.getD .null) :: pr.1, pr.2)

/-! ### Size lemmas used for termination of `unify` -/

theorem removeKey_fst_sizeOf (k : String) :
    ∀ (sh : List (String × DataType)) (v : DataType),
      (removeKey k sh).1 = some v → sizeOf v < sizeOf sh := by
  intro sh
  induction sh with
  | nil => intro v h; simp [removeKey] at h
  | cons p rest ih =>
    intro v h
    rcases p with ⟨k', v'⟩
    by_cases hk : k' = k
    · subst hk
      simp [removeKey] at h
      subst h
      simp
      omega
    · simp only [removeKey, if_neg hk] at h
      have := ih v h
      simp
      omega

theorem removeKey_snd_sizeOf (k : String) :
    ∀ (sh : List (String × DataType)), sizeOf (removeKey k sh).2 ≤ sizeOf sh := by
  intro sh
  induction sh with
  | nil => simp [removeKey]
  | cons p rest ih =>
    rcases p with ⟨k', v'⟩
    by_cases hk : k' = k
    · subst hk
      simp [removeKey]
      try omega
    · simp [removeKey, hk]
      try omega

theorem sizeOf_pos_list (sh : List (String × DataType)) : (1 : Nat) ≤ sizeOf sh := by
  cases sh <;> simp_arith

theorem pairFields_mem_sizeOf :
    ∀ (a sh : List (String × DataType)) (k : String) (va vb : DataType),
      (k, va, vb) ∈ (pairFields a sh).1 →
      sizeOf va + sizeOf vb < sizeOf a + sizeOf sh := by
  intro a
  induction a with
  | nil => intro sh k va vb h; simp [pairFields] at h
  | cons p rest ih =>
    intro sh k va vb h
    rcases p with ⟨k0, v0⟩
    simp only [pairFields, List.mem_cons] at h
    rcases h with h | h
    · simp only [Prod.mk.injEq] at h
      obtain ⟨hk, hva, hvb⟩ := h
      subst hva
      have hone := sizeOf_pos_list sh
      have hvb' : sizeOf vb ≤ sizeOf sh := by
        rw [hvb]
        cases hr : (removeKey k0 sh).1 with
        | none => simpa using hone
        | some w =>
          have hw := removeKey_fst_sizeOf k0 sh w hr
          simpa using Nat.le_of_lt hw
      simp
      omega
    · have h1 := ih (removeKey k0 sh).2 k va vb h
      have h2 := removeKey_snd_sizeOf k0 sh
      simp
      omega

theorem filter_sizeOf_le (f : String × DataType → Bool) :
    ∀ (l : List (String × DataType)), sizeOf (l.filter f) ≤ sizeOf l := by
  intro l
  induction l with
  | nil => simp
  | cons p rest ih =>
    by_cases hf : f p
    · simp [List.filter, hf]
      omega
    · simp [List.filter, hf]
      omega

theorem partition_fst_sizeOf (f : String × DataType → Bool)
    (l : List (String × DataType)) : sizeOf (l.partition f).1 ≤ sizeOf l := by
  rw [List.partition_eq_filter_filter]
  exact filter_sizeOf_le f l

theorem partition_snd_mem (f : String × DataType → Bool)
    (l : List (String × DataType)) (x : String × DataType)
    (h : x ∈ (l.partition f).2) : x ∈ l := by
  rw [List.partition_eq_filter_filter] at h
  exact List.mem_of_mem_filter h

theorem partition_fst_mem (f : String × DataType → Bool)
    (l : List (String × DataType)) (x : String × DataType)
    (h : x ∈ (l.partition f).1) : x ∈ l := by
  rw [List.partition_eq_filter_filter] at h
  exact List.mem_of_mem_filter h

/-! ## Unification (`DataType::unify`) -/

/-- Generate a data type that could represent something of type `t1`,
or of type `t2` (mirrors `DataType::unify` of the source arm by arm;
the `Object`/`Object` branch pairs the fields of `a` with the partition
of `b` through `pairFields`, which models the `shared.remove(&key)`
loop, and then collects into a `BTreeMap`). -/
def DataType.unify (t1 t2 : DataType) : DataType :=
  if DataType.beq t1 t2 then t1
  else
    match t1, t2 with
    | .variant types, t2 =>
      if types.isEmpty then t2
      else if containsType types t2 then .variant types
      else .variant (setFromList (types ++ [t2]))
    | .float, .int => .float
    | .int, .float => .float
    | .object a, .object b =>
      let parts := b.partition (fun p => containsKey p.1 a)
      let pr := pairFields a parts.1
      .object (mapFromList
        (pr.1.attach.map (fun x => (x.1.1, DataType.unify x.1.2.1 x.1.2.2)) ++
          parts.2.attach.map (fun x => (x.1.1, DataType.unify x.1.2 .null))))
    | t1, t2 => .variant (setFromList [t1, t2])
termination_by sizeOf t1 + sizeOf t2
decreasing_by
  · obtain ⟨⟨k, va, vb⟩, hmem⟩ := x
    have h1 := pairFields_mem_sizeOf a _ k va vb hmem
    have h2 : sizeOf parts.1 ≤ sizeOf b :=
      partition_fst_sizeOf (fun p => containsKey p.1 a) b
    simp
    omega
  · obtain ⟨⟨k, v⟩, hmem⟩ := x
    have hb : (k, v) ∈ b := partition_snd_mem _ b _ hmem
    have h1 : sizeOf (k, v) < sizeOf b := List.sizeOf_lt_of_mem hb
    simp at h1 ⊢
    omega

/-! ## JSON values (the `json::JsonValue` input tree)

The external parser's value tree.  `Short` and `String` are the two
string representations of the `json` crate; `Number` is modelled as a
rational standing for the `f64` the source converts it to; `Object`
is the crate's insertion-ordered list of key-value pairs. -/

/-- A parsed JSON value (model of `json::JsonValue`). -/
inductive JsonValue where
  | null
  | short (s : String)
  | string (s : String)
  | number (q : ℚ)
  | boolean (b : Bool)
  | object (entries : List (String × JsonValue))
  | array (elems : List JsonValue)

/-- Create a data type that can represent the given value (mirrors
`DataType::from_json_value`).  The `Number` branch models
`float == float.floor()` as `q = ⌊q⌋`; the `Array` branch folds
`unify` left-to-right over the element types (`Iterator::reduce`),
defaulting to the empty `Variant` for an empty array. -/
def DataType.fromJsonValue : JsonValue → DataType
  | .null => .null
  | .short _ => .string
  | .string _ => .string
  | .number q => if (q : ℚ) = (⌊q⌋ : ℚ) then .int else .float
  | .boolean _ => .bool
  | .object entries =>
    .object (mapFromList
      (entries.attach.map (fun x => (x.1.1, DataType.fromJsonValue x.1.2))))
  | .array elems =>
    .array
      (match elems.attach.map (fun x => DataType.fromJsonValue x.1) with
        | [] => .variant []
        | h :: t => t.foldl DataType.unify h)
termination_by v => sizeOf v
decreasing_by
  · obtain ⟨⟨k, j⟩, hmem⟩ := x
    have h1 := List.sizeOf_lt_of_mem hmem
    simp at h1 ⊢
    omega
  · have h1 := List.sizeOf_lt_of_mem x.2
    simp
    omega

/-! ## Declaration emission (`DataType::declare` and `struct Decls`) -/

/-- The declaration accumulator of the source: `next_index` feeds the
fresh `Data{n}` names, `decls` collects the emitted declaration
strings in push order. -/
structure Decls where
  next_index : Nat
  decls : List String
  deriving DecidableEq

mutual
/-- Emit a Rust representation of the data type: returns the name of
the (possibly newly declared) type and the updated accumulator
(mirrors `DataType::declare`). -/
def DataType.declare : DataType → Decls → String × Decls
  | .null, d => ("()", d)
  | .string, d => ("String", d)
  | .int, d => ("i32", d)
  | .float, d => ("f64", d)
  | .bool, d => ("bool", d)
  | .object members, d =>
    let name := "Data" ++ Nat.repr d.next_index
    let d1 : Decls := { d with next_index := d.next_index + 1 }
    let s := "struct " ++ name ++ " \x7b\n"
    let r := declareFields members s d1
    let s2 := r.1 ++ "\x7d"
    (name, { r.2 with decls := r.2.decls ++ [s2] })
  | .array elems, d =>
    let r := DataType.declare elems d
    ("Vec<" ++ r.1 ++ ">", r.2)
  | .variant options, d =>
    let name := "Data" ++ Nat.repr d.next_index
    let d1 : Decls := { d with next_index := d.next_index + 1 }
    let s := "enum " ++ name ++ " \x7b\n"
    let r := declareOptions options 0 s d1
    let s2 := r.1 ++ "\x7d"
    (name, { r.2 with decls := r.2.decls ++ [s2] })

/-- The member loop of the `Object` branch of `declare`: declares each
member type in turn, appending one `pub name: Type,` line per member
to the body string `s`. -/
def declareFields : List (String × DataType) → String → Decls → String × Decls
  | [], s, d => (s, d)
  | (member, memberType) :: rest, s, d =>
    let r := DataType.declare memberType d
    declareFields rest (s ++ "    pub " ++ member ++ ": " ++ r.1 ++ ",\n") r.2

/-- The option loop of the `Variant` branch of `declare` (with the
running `enumerate` index): declares each option type in turn,
appending one `OptionN(Type),` line per option. -/
def declareOptions : List DataType → Nat → String → Decls → String × Decls
  | [], _, s, d => (s, d)
  | optionType :: rest, idx, s, d =>
    let r := DataType.declare optionType d
    declareOptions rest (idx + 1) (s ++ "    Option" ++ Nat.repr idx ++ "(" ++ r.1 ++ "),\n") r.2
end

/-! ## Structural predicates and counts used by the claims -/

/-- Is the top constructor a `Variant`? -/
def DataType.isVariant : DataType → Bool
  | .variant _ => true
  | _ => false

/-- Is the node a composite (one that receives its own declaration):
an `Object` or a `Variant`? -/
def DataType.isComposite : DataType → Bool
  | .object _ => true
  | .variant _ => true
  | _ => false

/-- Adjacent keys strictly increasing: the representation invariant of
a `BTreeMap<String, DataType>` iteration. -/
def keysOrdered : List (String × DataType) → Bool
  | [] => true
  | [_] => true
  | p :: q :: rest => strLt p.1 q.1 && keysOrdered (q :: rest)

/-- Adjacent elements strictly increasing in `DataType.cmp`: the
representation invariant of a `BTreeSet<DataType>` iteration. -/
def optionsOrdered : List DataType → Bool
  | [] => true
  | [_] => true
  | t :: u :: rest => (DataType.cmp t u == .lt) && optionsOrdered (u :: rest)

mutual
/-- Hereditary well-formedness: every `Object` field list is sorted by
key and every `Variant` option list is sorted in `cmp`, at every depth
(true of every value a Rust `BTreeMap`/`BTreeSet` can represent). -/
def WFd : DataType → Bool
  | .object fs => keysOrdered fs && WFfields fs
  | .array e => WFd e
  | .variant os => optionsOrdered os && WFoptions os
  | _ => true

/-- `WFd` for every field value. -/
def WFfields : List (String × DataType) → Bool
  | [] => true
  | p :: rest => WFd p.2 && WFfields rest

/-- `WFd` for every option. -/
def WFoptions : List DataType → Bool
  | [] => true
  | t :: rest => WFd t && WFoptions rest
end

mutual
/-- No `Variant` occurs anywhere in the value. -/
def variantFree : DataType → Bool
  | .object fs => vfFields fs
  | .array e => variantFree e
  | .variant _ => false
  | _ => true

/-- `variantFree` for every field value. -/
def vfFields : List (String × DataType) → Bool
  | [] => true
  | p :: rest => variantFree p.2 && vfFields rest
end

mutual
/-- No `Variant` anywhere in the value directly contains another
`Variant` as a member. -/
def noNested : DataType → Bool
  | .object fs => nnFields fs
  | .array e => noNested e
  | .variant os => nnOptions os
  | _ => true

/-- `noNested` for every field value. -/
def nnFields : List (String × DataType) → Bool
  | [] => true
  | p :: rest => noNested p.2 && nnFields rest

/-- Each member of a `Variant`: not itself a `Variant`, and
hereditarily `noNested`. -/
def nnOptions : List DataType → Bool
  | [] => true
  | t :: rest => !t.isVariant && noNested t && nnOptions rest
end

mutual
/-- The shape `from_json_value` guarantees for every type it builds,
and that is preserved in every *second* argument `unify` receives
during inference: the top constructor is not a `Variant`, and object
fields recursively satisfy the same (array element types are
unconstrained, since unify never recurses into them). -/
def secondOk : DataType → Bool
  | .variant _ => false
  | .object fs => soFields fs
  | _ => true

/-- `secondOk` for every field value. -/
def soFields : List (String × DataType) → Bool
  | [] => true
  | p :: rest => secondOk p.2 && soFields rest
end

mutual
/-- Number of composite (`Object` or `Variant`) nodes in the tree,
counted with multiplicity: exactly the number of declarations
`declare` emits and the number of fresh names it consumes. -/
def compCount : DataType → Nat
  | .object fs => 1 + ccFields fs
  | .array e => compCount e
  | .variant os => 1 + ccOptions os
  | _ => 0

/-- Total `compCount` over a field list. -/
def ccFields : List (String × DataType) → Nat
  | [] => 0
  | p :: rest => compCount p.2 + ccFields rest

/-- Total `compCount` over an option list. -/
def ccOptions : List DataType → Nat
  | [] => 0
  | t :: rest => compCount t + ccOptions rest
end

/-! ## Lawfulness of the string order -/

theorem char_toNat_inj {a b : Char} (h : a.toNat = b.toNat) : a = b := by
  have h2 := congrArg Char.ofNat h
  simpa using h2

theorem charsLt_irrefl : ∀ l, charsLt l l = false := by
  intro l
  induction l with
  | nil => simp [charsLt]
  | cons a as ih => simp [charsLt, ih]

theorem charsLt_trans :
    ∀ l m n, charsLt l m = true → charsLt m n = true → charsLt l n = true := by
  intro l
  induction l with
  | nil =>
    intro m n h1 h2
    cases m with
    | nil => simp [charsLt] at h1
    | cons b bs =>
      cases n with
      | nil => simp [charsLt] at h2
      | cons c cs => simp [charsLt]
  | cons a as ih =>
    intro m n h1 h2
    cases m with
    | nil => simp [charsLt] at h1
    | cons b bs =>
      cases n with
      | nil => simp [charsLt] at h2
      | cons c cs =>
        simp only [charsLt, Bool.or_eq_true, Bool.and_eq_true, decide_eq_true_eq] at h1 h2 ⊢
        rcases h1 with h1 | ⟨hab, h1⟩
        · rcases h2 with h2 | ⟨hbc, h2⟩
          · exact Or.inl (Nat.lt_trans h1 h2)
          · subst hbc; exact Or.inl h1
        · subst hab
          rcases h2 with h2 | ⟨hbc, h2⟩
          · exact Or.inl h2
          · subst hbc; exact Or.inr ⟨rfl, ih bs cs h1 h2⟩

theorem charsCmp_eq_iff : ∀ l m, charsCmp l m = .eq ↔ l = m := by
  intro l
  induction l with
  | nil =>
    intro m
    cases m with
    | nil => simp [charsCmp]
    | cons b bs => simp [charsCmp]
  | cons a as ih =>
    intro m
    cases m with
    | nil => simp [charsCmp]
    | cons b bs =>
      by_cases h1 : a.toNat < b.toNat
      · simp only [charsCmp, if_pos h1]
        constructor
        · intro h; cases h
        · intro h
          rw [List.cons.injEq] at h
          obtain ⟨ha, _⟩ := h
          subst ha
          omega
      · by_cases h2 : b.toNat < a.toNat
        · simp only [charsCmp, if_neg h1, if_pos h2]
          constructor
          · intro h; cases h
          · intro h
            rw [List.cons.injEq] at h
            obtain ⟨ha, _⟩ := h
            subst ha
            omega
        · have hab : a = b := char_toNat_inj (by omega)
          subst hab
          simp only [charsCmp, if_neg h1, if_neg h2]
          rw [ih bs]
          simp

theorem charsCmp_swap : ∀ l m, (charsCmp l m).swap = charsCmp m l := by
  intro l
  induction l with
  | nil =>
    intro m
    cases m with
    | nil => simp [charsCmp, Ordering.swap]
    | cons b bs => simp [charsCmp, Ordering.swap]
  | cons a as ih =>
    intro m
    cases m with
    | nil => simp [charsCmp, Ordering.swap]
    | cons b bs =>
      by_cases h1 : a.toNat < b.toNat
      · have h2 : ¬ b.toNat < a.toNat := by omega
        simp [charsCmp, if_pos h1, if_neg h2, Ordering.swap]
      · by_cases h2 : b.toNat < a.toNat
        · simp [charsCmp, if_neg h1, if_pos h2, Ordering.swap]
        · simp [charsCmp, if_neg h1, if_neg h2, ih bs]

theorem charsCmp_lt_iff : ∀ l m, charsCmp l m = .lt ↔ charsLt l m = true := by
  intro l
  induction l with
  | nil =>
    intro m
    cases m with
    | nil => simp [charsCmp, charsLt]
    | cons b bs => simp [charsCmp, charsLt]
  | cons a as ih =>
    intro m
    cases m with
    | nil => simp [charsCmp, charsLt]
    | cons b bs =>
      by_cases h1 : a.toNat < b.toNat
      · simp [charsCmp, if_pos h1, charsLt, h1]
      · by_cases h2 : b.toNat < a.toNat
        · have hne : ¬ a = b := by
            intro h; subst h; omega
          simp [charsCmp, if_neg h1, if_pos h2, charsLt, h1, hne]
        · have hab : a = b := char_toNat_inj (by omega)
          subst hab
          simp [charsCmp, if_neg h1, if_neg h2, charsLt, ih bs]

theorem strCmp_eq_iff (a b : String) : strCmp a b = .eq ↔ a = b := by
  rw [strCmp, charsCmp_eq_iff]
  constructor
  · intro h; exact String.ext h
  · intro h; rw [h]

theorem strCmp_swap (a b : String) : (strCmp a b).swap = strCmp b a :=
  charsCmp_swap a.data b.data

theorem strCmp_lt_iff (a b : String) : strCmp a b = .lt ↔ strLt a b = true :=
  charsCmp_lt_iff a.data b.data

theorem strLt_irrefl (a : String) : strLt a a = false := charsLt_irrefl a.data

theorem strLt_trans {a b c : String} (h1 : strLt a b = true) (h2 : strLt b c = true) :
    strLt a c = true := charsLt_trans a.data b.data c.data h1 h2

theorem strLt_asymm {a b : String} (h1 : strLt a b = true) : strLt b a = false := by
  by_contra h
  have h2 : strLt b a = true := by
    cases hv : strLt b a
    · exact absurd hv h
    · rfl
  have := strLt_trans h1 h2
  rw [strLt_irrefl] at this
  cases this

theorem strLt_total (a b : String) :
    strLt a b = true ∨ a = b ∨ strLt b a = true := by
  cases hc : strCmp a b with
  | lt => exact Or.inl ((strCmp_lt_iff a b).mp hc)
  | eq => exact Or.inr (Or.inl ((strCmp_eq_iff a b).mp hc))
  | gt =>
    have : strCmp b a = .lt := by
      rw [← strCmp_swap a b, hc]
      rfl
    exact Or.inr (Or.inr ((strCmp_lt_iff b a).mp this))

theorem strLt_ne {a b : String} (h : strLt a b = true) : a ≠ b := by
  intro he
  subst he
  rw [strLt_irrefl] at h
  cases h

/-! ## Lawfulness of structural equality and of the derived order -/

mutual
theorem beq_iff : ∀ (a b : DataType), DataType.beq a b = true ↔ a = b
  | .null, b => by cases b <;> simp [DataType.beq]
  | .string, b => by cases b <;> simp [DataType.beq]
  | .int, b => by cases b <;> simp [DataType.beq]
  | .float, b => by cases b <;> simp [DataType.beq]
  | .bool, b => by cases b <;> simp [DataType.beq]
  | .object fs, b => by
    cases b <;> simp [DataType.beq]
    exact beqFields_iff fs _
  | .array x, b => by
    cases b <;> simp [DataType.beq]
    exact beq_iff x _
  | .variant xs, b => by
    cases b <;> simp [DataType.beq]
    exact beqOptions_iff xs _

theorem beqFields_iff : ∀ (l m : List (String × DataType)), beqFields l m = true ↔ l = m
  | [], m => by cases m <;> simp [beqFields]
  | (k, v) :: r, m => by
    cases m with
    | nil => simp [beqFields]
    | cons p rest =>
      rcases p with ⟨k', v'⟩
      simp [beqFields, beq_iff v v', beqFields_iff r rest, and_assoc]

theorem beqOptions_iff : ∀ (l m : List DataType), beqOptions l m = true ↔ l = m
  | [], m => by cases m <;> simp [beqOptions]
  | v :: r, m => by
    cases m with
    | nil => simp [beqOptions]
    | cons v' rest =>
      simp [beqOptions, beq_iff v v', beqOptions_iff r rest]
end

theorem beq_self (a : DataType) : DataType.beq a a = true := (beq_iff a a).mpr rfl

theorem unify_self (t : DataType) : DataType.unify t t = t := by
  rw [DataType.unify.eq_def, if_pos (beq_self t)]

mutual
theorem cmp_eq_iff : ∀ (a b : DataType), DataType.cmp a b = .eq ↔ a = b
  | .null, b => by cases b <;> simp [DataType.cmp, DataType.ctorIdx]
  | .string, b => by cases b <;> simp [DataType.cmp, DataType.ctorIdx]
  | .int, b => by cases b <;> simp [DataType.cmp, DataType.ctorIdx]
  | .float, b => by cases b <;> simp [DataType.cmp, DataType.ctorIdx]
  | .bool, b => by cases b <;> simp [DataType.cmp, DataType.ctorIdx]
  | .object fs, b => by
    cases b <;> simp [DataType.cmp, DataType.ctorIdx]
    exact cmpFields_eq_iff fs _
  | .array x, b => by
    cases b <;> simp [DataType.cmp, DataType.ctorIdx]
    exact cmp_eq_iff x _
  | .variant xs, b => by
    cases b <;> simp [DataType.cmp, DataType.ctorIdx]
    exact cmpOptions_eq_iff xs _

theorem cmpFields_eq_iff : ∀ (l m : List (String × DataType)), cmpFields l m = .eq ↔ l = m
  | [], m => by cases m <;> simp [cmpFields]
  | (k, v) :: r, m => by
    cases m with
    | nil => simp [cmpFields]
    | cons p rest =>
      rcases p with ⟨k', v'⟩
      rcases hk : strCmp k k' with _ | _ | _
      · have hne : k ≠ k' := by
          intro h
          rw [h, (strCmp_eq_iff k' k').mpr rfl] at hk
          cases hk
        simp [cmpFields, hk, hne]
      · have hkk : k = k' := (strCmp_eq_iff k k').mp hk
        subst hkk
        rcases hv : DataType.cmp v v' with _ | _ | _
        · have hne : v ≠ v' := by
            intro h
            rw [h, (cmp_eq_iff v' v').mpr rfl] at hv
            cases hv
          simp [cmpFields, hk, hv, hne]
        · have hvv : v = v' := (cmp_eq_iff v v').mp hv
          subst hvv
          simp [cmpFields, hk, hv, cmpFields_eq_iff r rest]
        · have hne : v ≠ v' := by
            intro h
            rw [h, (cmp_eq_iff v' v').mpr rfl] at hv
            cases hv
          simp [cmpFields, hk, hv, hne]
      · have hne : k ≠ k' := by
          intro h
          rw [h, (strCmp_eq_iff k' k').mpr rfl] at hk
          cases hk
        simp [cmpFields, hk, hne]

theorem cmpOptions_eq_iff : ∀ (l m : List DataType), cmpOptions l m = .eq ↔ l = m
  | [], m => by cases m <;> simp [cmpOptions]
  | v :: r, m => by
    cases m with
    | nil => simp [cmpOptions]
    | cons v' rest =>
      rcases hv : DataType.cmp v v' with _ | _ | _
      · have hne : v ≠ v' := by
          intro h
          rw [h, (cmp_eq_iff v' v').mpr rfl] at hv
          cases hv
        simp [cmpOptions, hv, hne]
      · have hvv : v = v' := (cmp_eq_iff v v').mp hv
        subst hvv
        simp [cmpOptions, hv, cmpOptions_eq_iff r rest]
      · have hne : v ≠ v' := by
          intro h
          rw [h, (cmp_eq_iff v' v').mpr rfl] at hv
          cases hv
        simp [cmpOptions, hv, hne]
end

mutual
theorem dcmp_swap : ∀ (a b : DataType), (DataType.cmp a b).swap = DataType.cmp b a
  | .object fs, b => by
    cases b <;> simp [DataType.cmp, DataType.ctorIdx, Ordering.swap]
    exact dcmpFields_swap fs _
  | .array x, b => by
    cases b <;> simp [DataType.cmp, DataType.ctorIdx, Ordering.swap]
    exact dcmp_swap x _
  | .variant xs, b => by
    cases b <;> simp [DataType.cmp, DataType.ctorIdx, Ordering.swap]
    exact dcmpOptions_swap xs _
  | .null, b => by cases b <;> simp [DataType.cmp, DataType.ctorIdx, Ordering.swap]
  | .string, b => by cases b <;> simp [DataType.cmp, DataType.ctorIdx, Ordering.swap]
  | .int, b => by cases b <;> simp [DataType.cmp, DataType.ctorIdx, Ordering.swap]
  | .float, b => by cases b <;> simp [DataType.cmp, DataType.ctorIdx, Ordering.swap]
  | .bool, b => by cases b <;> simp [DataType.cmp, DataType.ctorIdx, Ordering.swap]

theorem dcmpFields_swap : ∀ (l m : List (String × DataType)), (cmpFields l m).swap = cmpFields m l
  | [], m => by cases m <;> simp [cmpFields, Ordering.swap]
  | (k, v) :: r, m => by
    cases m with
    | nil => simp [cmpFields, Ordering.swap]
    | cons p rest =>
      rcases p with ⟨k', v'⟩
      have hks := strCmp_swap k k'
      rcases hk : strCmp k k' with _ | _ | _ <;> rw [hk] at hks
      · simp [cmpFields, hk, ← hks, Ordering.swap]
      · rcases hv : DataType.cmp v v' with _ | _ | _ <;>
          have hvs := dcmp_swap v v' <;> rw [hv] at hvs
        · simp [cmpFields, hk, hv, ← hks, ← hvs, Ordering.swap]
        · simpa [cmpFields, hk, hv, ← hks, ← hvs, Ordering.swap] using
            dcmpFields_swap r rest
        · simp [cmpFields, hk, hv, ← hks, ← hvs, Ordering.swap]
      · simp [cmpFields, hk, ← hks, Ordering.swap]

theorem dcmpOptions_swap : ∀ (l m : List DataType), (cmpOptions l m).swap = cmpOptions m l
  | [], m => by cases m <;> simp [cmpOptions, Ordering.swap]
  | v :: r, m => by
    cases m with
    | nil => simp [cmpOptions, Ordering.swap]
    | cons v' rest =>
      rcases hv : DataType.cmp v v' with _ | _ | _ <;>
        have hvs := dcmp_swap v v' <;> rw [hv] at hvs
      · simp [cmpOptions, hv, ← hvs, Ordering.swap]
      · simpa [cmpOptions, hv, ← hvs, Ordering.swap] using dcmpOptions_swap r rest
      · simp [cmpOptions, hv, ← hvs, Ordering.swap]
end

/-! ## Basic unification lemmas -/

theorem unify_variant_left_empty (t : DataType) :
    DataType.unify (.variant []) t = t := by
  by_cases h : DataType.beq (.variant []) t = true
  · rw [← (beq_iff _ t).mp h]
    exact unify_self _
  · rw [DataType.unify.eq_def, if_neg h]
    simp

theorem setFromList_pair_comm {t1 t2 : DataType} (h : t1 ≠ t2) :
    setFromList [t1, t2] = setFromList [t2, t1] := by
  have hs := dcmp_swap t1 t2
  rcases hc : DataType.cmp t1 t2 with _ | _ | _ <;> rw [hc] at hs
  · simp [setFromList, insertSet, hc, ← hs, Ordering.swap]
  · exact absurd ((cmp_eq_iff t1 t2).mp hc) h
  · simp [setFromList, insertSet, hc, ← hs, Ordering.swap]

/-! ## Association-list map lemmas -/

/-- The `BTreeMap` iteration invariant as a `Pairwise` statement. -/
def SortedK (l : List (String × DataType)) : Prop :=
  l.Pairwise (fun p q => strLt p.1 q.1 = true)

theorem keysOrdered_iff : ∀ l, keysOrdered l = true ↔ SortedK l := by
  intro l
  induction l with
  | nil => simp [keysOrdered, SortedK]
  | cons p rest ih =>
    cases rest with
    | nil => simp [keysOrdered, SortedK]
    | cons q rest2 =>
      rw [keysOrdered, Bool.and_eq_true, ih]
      constructor
      · rintro ⟨h1, h2⟩
        rw [SortedK, List.pairwise_cons]
        refine ⟨?_, h2⟩
        intro x hx
        rcases List.mem_cons.mp hx with hx | hx
        · rw [hx]; exact h1
        · rw [SortedK, List.pairwise_cons] at h2
          exact strLt_trans h1 (h2.1 x hx)
      · intro h
        rw [SortedK, List.pairwise_cons] at h
        exact ⟨h.1 q (List.mem_cons_self q rest2), h.2⟩

theorem SortedK.keysNodup {l : List (String × DataType)} (h : SortedK l) :
    (l.map Prod.fst).Nodup := by
  have h2 : l.Pairwise (fun p q => p.1 ≠ q.1) := h.imp (fun hpq => strLt_ne hpq)
  exact List.pairwise_map.mpr h2

theorem containsKey_iff_mem :
    ∀ (l : List (String × DataType)) (k : String),
      containsKey k l = true ↔ k ∈ l.map Prod.fst := by
  intro l k
  induction l with
  | nil => simp [containsKey]
  | cons p rest ih =>
    rcases p with ⟨kh, vh⟩
    by_cases h : kh = k
    · subst h
      simp [containsKey]
    · simp [containsKey, h, ih, Ne.symm h]

theorem lookup_isSome_iff_mem :
    ∀ (l : List (String × DataType)) (k : String),
      (lookupM k l).isSome = true ↔ k ∈ l.map Prod.fst := by
  intro l k
  induction l with
  | nil => simp [lookupM]
  | cons p rest ih =>
    rcases p with ⟨kh, vh⟩
    by_cases h : kh = k
    · subst h
      simp [lookupM]
    · simp [lookupM, h, ih, Ne.symm h]

theorem lookup_eq_none_iff (l : List (String × DataType)) (k : String) :
    lookupM k l = none ↔ k ∉ l.map Prod.fst := by
  rw [← lookup_isSome_iff_mem]
  cases lookupM k l <;> simp

theorem lookup_insertMap (k' : String) (v : DataType) :
    ∀ (m : List (String × DataType)) (k : String),
      lookupM k (insertMap k' v m) = if k' = k then some v else lookupM k m := by
  intro m
  induction m with
  | nil =>
    intro k
    by_cases hk : k' = k <;> simp [insertMap, lookupM, hk]
  | cons p rest ih =>
    intro k
    rcases p with ⟨kh, vh⟩
    rw [insertMap]
    by_cases h1 : strLt k' kh
    · rw [if_pos h1]
      by_cases hk : k' = k <;> simp [lookupM, hk]
    · rw [if_neg h1]
      by_cases h2 : k' = kh
      · rw [if_pos h2]
        subst h2
        by_cases hk : k' = k <;> simp [lookupM, hk]
      · rw [if_neg h2]
        by_cases hk : kh = k
        · subst hk
          simp [lookupM, h2]
        · simp [lookupM, hk, ih k]

theorem mem_insertMap (k : String) (v : DataType) :
    ∀ (m : List (String × DataType)) (q : String × DataType),
      q ∈ insertMap k v m → q = (k, v) ∨ q ∈ m := by
  intro m
  induction m with
  | nil => intro q hq; simpa [insertMap] using hq
  | cons p rest ih =>
    intro q hq
    rcases p with ⟨kh, vh⟩
    rw [insertMap] at hq
    by_cases h1 : strLt k kh
    · rw [if_pos h1] at hq
      rcases List.mem_cons.mp hq with h | h
      · exact Or.inl h
      · exact Or.inr h
    · rw [if_neg h1] at hq
      by_cases h2 : k = kh
      · rw [if_pos h2] at hq
        rcases List.mem_cons.mp hq with h | h
        · exact Or.inl h
        · exact Or.inr (List.mem_cons_of_mem _ h)
      · rw [if_neg h2] at hq
        rcases List.mem_cons.mp hq with h | h
        · exact Or.inr (h ▸ List.mem_cons_self _ _)
        · rcases ih q h with h' | h'
          · exact Or.inl h'
          · exact Or.inr (List.mem_cons_of_mem _ h')

theorem insertMap_sortedK (k : String) (v : DataType) :
    ∀ (m : List (String × DataType)), SortedK m → SortedK (insertMap k v m) := by
  intro m
  induction m with
  | nil => intro _; simp [insertMap, SortedK]
  | cons p rest ih =>
    intro hs
    rcases p with ⟨kh, vh⟩
    rw [SortedK, List.pairwise_cons] at hs
    obtain ⟨hhead, htail⟩ := hs
    rw [insertMap]
    by_cases h1 : strLt k kh
    · rw [if_pos h1]
      rw [SortedK, List.pairwise_cons]
      refine ⟨?_, List.pairwise_cons.mpr ⟨hhead, htail⟩⟩
      intro q hq
      rcases List.mem_cons.mp hq with h | h
      · rw [h]; exact h1
      · exact strLt_trans h1 (hhead q h)
    · rw [if_neg h1]
      by_cases h2 : k = kh
      · rw [if_pos h2]
        subst h2
        exact List.pairwise_cons.mpr ⟨hhead, htail⟩
      · rw [if_neg h2]
        rw [SortedK, List.pairwise_cons]
        refine ⟨?_, ih htail⟩
        intro q hq
        rcases mem_insertMap k v rest q hq with h | h
        · rw [h]
          rcases strLt_total k kh with ht | ht | ht
          · exact absurd ht h1
          · exact absurd ht h2
          · exact ht
        · exact hhead q h

theorem mapFromList_sortedK_aux :
    ∀ (l acc : List (String × DataType)), SortedK acc →
      SortedK (l.foldl (fun acc p => insertMap p.1 p.2 acc) acc) := by
  intro l
  induction l with
  | nil => intro acc h; simpa using h
  | cons p rest ih =>
    intro acc h
    rw [List.foldl_cons]
    exact ih _ (insertMap_sortedK p.1 p.2 acc h)

theorem mapFromList_sortedK (l : List (String × DataType)) :
    SortedK (mapFromList l) :=
  mapFromList_sortedK_aux l [] (by simp [SortedK])

theorem lookup_foldl_insert :
    ∀ (l acc : List (String × DataType)) (k : String),
      (l.map Prod.fst).Nodup →
      lookupM k (l.foldl (fun acc p => insertMap p.1 p.2 acc) acc) =
        (match lookupM k l with
          | some v => some v
          | none => lookupM k acc) := by
  intro l
  induction l with
  | nil => intro acc k _; simp [lookupM]
  | cons p rest ih =>
    intro acc k hnd
    rcases p with ⟨kh, vh⟩
    rw [List.map_cons, List.nodup_cons] at hnd
    obtain ⟨hknotin, hndrest⟩ := hnd
    rw [List.foldl_cons]
    rw [ih (insertMap kh vh acc) k hndrest]
    by_cases hk : kh = k
    · subst hk
      have hnone : lookupM kh rest = none := (lookup_eq_none_iff rest kh).mpr hknotin
      rw [hnone]
      simp only [lookupM, if_pos rfl]
      rw [lookup_insertMap]
      simp
    · simp only [lookupM, if_neg hk]
      cases hr : lookupM k rest with
      | some v => simp
      | none =>
        simp only
        rw [lookup_insertMap]
        simp [hk]

theorem lookup_mapFromList (l : List (String × DataType)) (k : String)
    (h : (l.map Prod.fst).Nodup) :
    lookupM k (mapFromList l) = lookupM k l := by
  rw [mapFromList, lookup_foldl_insert l [] k h]
  cases lookupM k l <;> simp [lookupM]

theorem lookup_mem_keys {l : List (String × DataType)} {k : String} {v : DataType}
    (h : lookupM k l = some v) : k ∈ l.map Prod.fst := by
  rw [← lookup_isSome_iff_mem, h]
  rfl

theorem sortedMap_ext :
    ∀ (l m : List (String × DataType)), SortedK l → SortedK m →
      (∀ k, lookupM k l = lookupM k m) → l = m := by
  intro l
  induction l with
  | nil =>
    intro m _ hm h
    cases m with
    | nil => rfl
    | cons p rest =>
      have := h p.1
      simp [lookupM] at this
  | cons pl restl ih =>
    intro m hl hm h
    cases m with
    | nil =>
      have := h pl.1
      simp [lookupM] at this
    | cons pm restm =>
      rcases pl with ⟨kl, vl⟩
      rcases pm with ⟨km, vm⟩
      rw [SortedK, List.pairwise_cons] at hl hm
      have hkeq : kl = km := by
        by_contra hne
        have h1 : lookupM kl ((km, vm) :: restm) = some vl := by
          rw [← h kl]; simp [lookupM]
        rw [lookupM, if_neg (fun he => hne (he.symm))] at h1
        have hin1 : kl ∈ restm.map Prod.fst := lookup_mem_keys h1
        have hlt1 : strLt km kl = true := by
          rcases List.mem_map.mp hin1 with ⟨q, hq, hq2⟩
          have := hm.1 q hq
          rw [hq2] at this
          exact this
        have h2 : lookupM km ((kl, vl) :: restl) = some vm := by
          rw [h km]; simp [lookupM]
        rw [lookupM, if_neg hne] at h2
        have hin2 : km ∈ restl.map Prod.fst := lookup_mem_keys h2
        have hlt2 : strLt kl km = true := by
          rcases List.mem_map.mp hin2 with ⟨q, hq, hq2⟩
          have := hl.1 q hq
          rw [hq2] at this
          exact this
        have := strLt_trans hlt1 hlt2
        rw [strLt_irrefl] at this
        cases this
      subst hkeq
      have hveq : vl = vm := by
        have := h kl
        simp [lookupM] at this
        exact this
      subst hveq
      have htails : ∀ k, lookupM k restl = lookupM k restm := by
        intro k
        by_cases hk : kl = k
        · subst hk
          have hout1 : kl ∉ restl.map Prod.fst := by
            intro hmem
            rcases List.mem_map.mp hmem with ⟨q, hq, hq2⟩
            have := hl.1 q hq
            rw [hq2, strLt_irrefl] at this
            cases this
          have hout2 : kl ∉ restm.map Prod.fst := by
            intro hmem
            rcases List.mem_map.mp hmem with ⟨q, hq, hq2⟩
            have := hm.1 q hq
            rw [hq2, strLt_irrefl] at this
            cases this
          rw [(lookup_eq_none_iff restl kl).mpr hout1,
            (lookup_eq_none_iff restm kl).mpr hout2]
        · have := h k
          rw [lookupM, if_neg hk, lookupM, if_neg hk] at this
          exact this
      exact congrArg _ (ih restm hl.2 hm.2 htails)

/-! ## `removeKey` and `pairFields` characterization -/

theorem removeKey_fst_eq_lookup (k : String) :
    ∀ (sh : List (String × DataType)), (removeKey k sh).1 = lookupM k sh := by
  intro sh
  induction sh with
  | nil => simp [removeKey, lookupM]
  | cons p rest ih =>
    by_cases h : p.1 = k
    · simp [removeKey, lookupM, h]
    · simp [removeKey, lookupM, h, ih]

theorem removeKey_lookup_ne {k k' : String} (hne : k' ≠ k) :
    ∀ (sh : List (String × DataType)),
      lookupM k' (removeKey k sh).2 = lookupM k' sh := by
  intro sh
  induction sh with
  | nil => simp [removeKey]
  | cons p rest ih =>
    by_cases h : p.1 = k
    · have h2 : ¬ p.1 = k' := by
        rw [h]; exact fun he => hne he.symm
      simp [removeKey, lookupM, h, h2, Ne.symm hne]
    · by_cases h2 : p.1 = k'
      · simp [removeKey, lookupM, h, h2, hne]
      · simp [removeKey, lookupM, h, h2, ih]

theorem removeKey_snd_sublist (k : String) :
    ∀ (sh : List (String × DataType)), (removeKey k sh).2.Sublist sh := by
  intro sh
  induction sh with
  | nil => simp [removeKey]
  | cons p rest ih =>
    by_cases h : p.1 = k
    · simp [removeKey, h]
    · simp only [removeKey, if_neg h]
      exact List.Sublist.cons₂ p ih

theorem removeKey_key_gone (k : String) :
    ∀ (sh : List (String × DataType)), (sh.map Prod.fst).Nodup →
      k ∉ ((removeKey k sh).2.map Prod.fst) := by
  intro sh
  induction sh with
  | nil => simp [removeKey]
  | cons p rest ih =>
    intro hnd
    rw [List.map_cons, List.nodup_cons] at hnd
    obtain ⟨hnotin, hndrest⟩ := hnd
    by_cases h : p.1 = k
    · rw [removeKey, if_pos h]
      subst h
      exact hnotin
    · rw [removeKey, if_neg h]
      simp only [List.map_cons, List.mem_cons]
      rintro (hk | hk)
      · exact h hk.symm
      · exact ih hndrest hk

theorem pairFields_fst_eq :
    ∀ (a sh : List (String × DataType)), (a.map Prod.fst).Nodup →
      (pairFields a sh).1 =
        a.map (fun p => (p.1, p.2, (lookupM p.1 sh).getD .null)) := by
  intro a
  induction a with
  | nil => intro sh _; simp [pairFields]
  | cons p rest ih =>
    intro sh hnd
    rcases p with ⟨k, v⟩
    rw [List.map_cons, List.nodup_cons] at hnd
    obtain ⟨hnotin, hndrest⟩ := hnd
    rw [pairFields]
    simp only [List.map_cons]
    rw [removeKey_fst_eq_lookup, ih (removeKey k sh).2 hndrest]
    congr 1
    apply List.map_congr_left
    intro q hq
    have hqk : q.1 ≠ k := by
      intro he
      apply hnotin
      rw [← he]
      simpa using List.mem_map_of_mem Prod.fst hq
    rw [removeKey_lookup_ne hqk]

theorem pairFields_snd_empty :
    ∀ (a sh : List (String × DataType)),
      (∀ p ∈ sh, containsKey p.1 a = true) → (sh.map Prod.fst).Nodup →
      (pairFields a sh).2 = [] := by
  intro a
  induction a with
  | nil =>
    intro sh hcov _
    cases sh with
    | nil => simp [pairFields]
    | cons p rest =>
      have := hcov p (List.mem_cons_self p rest)
      simp [containsKey] at this
  | cons p rest ih =>
    intro sh hcov hnd
    rcases p with ⟨k, v⟩
    rw [pairFields]
    simp only
    apply ih (removeKey k sh).2
    · intro q hq
      have hqsh : q ∈ sh := (removeKey_snd_sublist k sh).mem hq
      have hqcov := hcov q hqsh
      rw [containsKey] at hqcov
      simp only [Bool.or_eq_true, decide_eq_true_eq] at hqcov
      rcases hqcov with hqk | hqrest
      · have hmem := List.mem_map_of_mem Prod.fst hq
        rw [← hqk] at hmem
        exact absurd hmem (removeKey_key_gone k sh hnd)
      · exact hqrest
    · exact ((removeKey_snd_sublist k sh).map Prod.fst).nodup hnd

/-! ## More lookup lemmas -/

theorem lookup_append (k : String) :
    ∀ (l1 l2 : List (String × DataType)),
      lookupM k (l1 ++ l2) =
        (match lookupM k l1 with
          | some v => some v
          | none => lookupM k l2) := by
  intro l1 l2
  induction l1 with
  | nil => simp [lookupM]
  | cons p rest ih =>
    by_cases h : p.1 = k
    · simp [lookupM, h]
    · simp [lookupM, h, ih]

theorem lookup_map_pair (k : String) (f : String → DataType → DataType) :
    ∀ (l : List (String × DataType)),
      lookupM k (l.map (fun p => (p.1, f p.1 p.2))) =
        Option.map (f k) (lookupM k l) := by
  intro l
  induction l with
  | nil => simp [lookupM]
  | cons p rest ih =>
    by_cases h : p.1 = k
    · subst h
      simp [lookupM]
    · simp [lookupM, h, ih]

theorem lookup_map_triple (k : String) (f : String → DataType × DataType → DataType) :
    ∀ (l : List (String × DataType × DataType)),
      lookupM k (l.map (fun p => (p.1, f p.1 p.2))) =
        Option.map (f k) ((l.find? (fun p => p.1 = k)).map Prod.snd) := by
  intro l
  induction l with
  | nil => simp [lookupM]
  | cons p rest ih =>
    by_cases h : p.1 = k
    · subst h
      simp [lookupM, List.find?]
    · simp [lookupM, h, ih, List.find?]

theorem lookup_filter_key (k : String) (pred : String → Bool) :
    ∀ (l : List (String × DataType)),
      lookupM k (l.filter (fun p => pred p.1)) =
        if pred k then lookupM k l else none := by
  intro l
  induction l with
  | nil => simp [lookupM]
  | cons p rest ih =>
    by_cases hp : pred p.1
    · by_cases h : p.1 = k
      · subst h
        simp [List.filter, lookupM, hp, ih]
      · simp [List.filter, lookupM, hp, h, ih]
    · by_cases h : p.1 = k
      · subst h
        simp [List.filter, lookupM, hp, ih]
      · simp [List.filter, lookupM, hp, h, ih]

theorem keys_map_pair (f : String → DataType → DataType)
    (l : List (String × DataType)) :
    (l.map (fun p => (p.1, f p.1 p.2))).map Prod.fst = l.map Prod.fst := by
  rw [List.map_map]
  rfl

/-! ## Unfolding the `Object`/`Object` branch of `unify` -/

theorem attach_map_fn {α β : Type} (l : List α) (f : α → β) :
    l.attach.map (fun x => f x.1) = l.map f := by
  induction l with
  | nil => simp
  | cons a rest ih => simp

theorem unify_object_object (a b : List (String × DataType))
    (h : DataType.beq (.object a) (.object b) = false) :
    DataType.unify (.object a) (.object b) =
      .object (mapFromList
        ((pairFields a ((b.partition (fun p => containsKey p.1 a)).1)).1.map
            (fun x => (x.1, DataType.unify x.2.1 x.2.2)) ++
          ((b.partition (fun p => containsKey p.1 a)).2).map
            (fun x => (x.1, DataType.unify x.2 .null)))) := by
  rw [DataType.unify.eq_def, if_neg (by simp [h])]
  simp only [List.map_attach, List.pmap_eq_map]

/-! ## Lookup characterization of object unification -/

theorem pairFields_keys :
    ∀ (a sh : List (String × DataType)),
      (pairFields a sh).1.map Prod.fst = a.map Prod.fst := by
  intro a
  induction a with
  | nil => intro sh; simp [pairFields]
  | cons p rest ih =>
    intro sh
    rcases p with ⟨k, v⟩
    rw [pairFields]
    simp only [List.map_cons]
    rw [ih]

theorem lookup_pairs_map (k : String) :
    ∀ (a sh : List (String × DataType)),
      lookupM k ((pairFields a sh).1.map (fun x => (x.1, DataType.unify x.2.1 x.2.2))) =
        Option.map (fun v => DataType.unify v ((lookupM k sh).getD .null)) (lookupM k a) := by
  intro a
  induction a with
  | nil => intro sh; simp [pairFields, lookupM]
  | cons p rest ih =>
    intro sh
    rcases p with ⟨ka, va⟩
    rw [pairFields]
    simp only [List.map_cons]
    by_cases h : ka = k
    · subst h
      simp [lookupM, removeKey_fst_eq_lookup]
    · simp only [lookupM, if_neg h]
      rw [ih (removeKey ka sh).2]
      rw [removeKey_lookup_ne (fun he => h he.symm)]

theorem lookup_bonly_map (k : String) (l : List (String × DataType)) :
    lookupM k (l.map (fun x => (x.1, DataType.unify x.2 .null))) =
      Option.map (fun v => DataType.unify v .null) (lookupM k l) :=
  lookup_map_pair k (fun _ v => DataType.unify v .null) l

theorem lookup_shared_filter (k : String) (A B : List (String × DataType)) :
    lookupM k (B.filter (fun p => containsKey p.1 A)) =
      if containsKey k A then lookupM k B else none :=
  lookup_filter_key k (fun s => containsKey s A) B

theorem lookup_bonly_filter (k : String) (A B : List (String × DataType)) :
    lookupM k (B.filter (not ∘ fun p => containsKey p.1 A)) =
      if !(containsKey k A) then lookupM k B else none :=
  lookup_filter_key k (fun s => !(containsKey s A)) B

theorem unify_object_lookup (A B : List (String × DataType))
    (hA : SortedK A) (hB : SortedK B) :
    ∃ C, DataType.unify (.object A) (.object B) = .object C ∧ SortedK C ∧
      ∀ k, lookupM k C =
        (match lookupM k A, lookupM k B with
          | some av, some bv => some (DataType.unify av bv)
          | some av, none => some (DataType.unify av .null)
          | none, some bv => some (DataType.unify bv .null)
          | none, none => none) := by
  by_cases he : DataType.beq (.object A) (.object B) = true
  · have heq : A = B := DataType.object.inj ((beq_iff _ _).mp he)
    subst heq
    refine ⟨A, ?_, hA, ?_⟩
    · exact unify_self _
    · intro k
      cases h : lookupM k A with
      | none => simp
      | some v => simp [unify_self]
  · have he' : DataType.beq (.object A) (.object B) = false := by
      cases hv : DataType.beq (.object A) (.object B)
      · rfl
      · exact absurd hv he
    rw [unify_object_object A B he']
    rw [List.partition_eq_filter_filter]
    simp only
    set shared := B.filter (fun p => containsKey p.1 A) with hshared
    set bonly := B.filter (not ∘ fun p => containsKey p.1 A) with hbonly
    set L := (pairFields A shared).1.map (fun x => (x.1, DataType.unify x.2.1 x.2.2)) ++
      bonly.map (fun x => (x.1, DataType.unify x.2 .null)) with hL
    have hkeys1 : ((pairFields A shared).1.map
        (fun x => (x.1, DataType.unify x.2.1 x.2.2))).map Prod.fst = A.map Prod.fst := by
      rw [List.map_map]
      have : (Prod.fst ∘ fun x : String × DataType × DataType =>
          (x.1, DataType.unify x.2.1 x.2.2)) = Prod.fst := by
        funext x
        rfl
      rw [this, pairFields_keys]
    have hkeys2 : (bonly.map
        (fun x => (x.1, DataType.unify x.2 .null))).map Prod.fst = bonly.map Prod.fst := by
      rw [List.map_map]
      rfl
    have hnodupA : (A.map Prod.fst).Nodup := hA.keysNodup
    have hnodupB : (B.map Prod.fst).Nodup := hB.keysNodup
    have hnodupbonly : (bonly.map Prod.fst).Nodup := by
      rw [hbonly]
      exact ((List.filter_sublist B).map Prod.fst).nodup hnodupB
    have hdisj : ∀ k0, k0 ∈ A.map Prod.fst → k0 ∈ bonly.map Prod.fst → False := by
      intro k0 h1 h2
      rcases List.mem_map.mp h2 with ⟨q, hq, hq1⟩
      rw [hbonly, List.mem_filter] at hq
      have hcq : containsKey q.1 A = true := by
        rw [containsKey_iff_mem, hq1]
        exact h1
      rw [Function.comp] at hq
      rw [hcq] at hq
      simp at hq
    have hnodupL : (L.map Prod.fst).Nodup := by
      rw [hL, List.map_append, hkeys1, hkeys2]
      rw [List.nodup_append]
      exact ⟨hnodupA, hnodupbonly, fun k0 h1 h2 => hdisj k0 h1 h2⟩
    refine ⟨mapFromList L, rfl, mapFromList_sortedK L, ?_⟩
    intro k
    rw [lookup_mapFromList L k hnodupL]
    rw [hL, lookup_append]
    rw [lookup_pairs_map k A shared]
    cases hA0 : lookupM k A with
    | some av =>
      have hcA : containsKey k A = true := by
        rw [containsKey_iff_mem]
        exact lookup_mem_keys hA0
      rw [hshared, lookup_shared_filter k A B, if_pos hcA]
      cases hB0 : lookupM k B with
      | some bv => simp
      | none => simp
    | none =>
      have hcA : containsKey k A = false := by
        cases hv : containsKey k A
        · rfl
        · rw [containsKey_iff_mem] at hv
          exact absurd hv ((lookup_eq_none_iff A k).mp hA0)
      rw [lookup_bonly_map k bonly, hbonly, lookup_bonly_filter k A B, hcA]
      cases hB0 : lookupM k B with
      | some bv => simp
      | none => simp

/-! ## Commutativity of `unify` on variant-free values -/

theorem lookup_sizeOf_lt :
    ∀ {A : List (String × DataType)} {k : String} {v : DataType},
      lookupM k A = some v → sizeOf v < sizeOf A := by
  intro A
  induction A with
  | nil => intro k v h; simp [lookupM] at h
  | cons p rest ih =>
    intro k v h
    rcases p with ⟨kh, vh⟩
    by_cases hk : kh = k
    · rw [lookupM, if_pos hk, Option.some.injEq] at h
      subst h
      simp
      omega
    · rw [lookupM, if_neg hk] at h
      have := ih h
      simp
      omega

theorem WFfields_lookup :
    ∀ {A : List (String × DataType)} {k : String} {v : DataType},
      WFfields A = true → lookupM k A = some v → WFd v = true := by
  intro A
  induction A with
  | nil => intro k v _ h; simp [lookupM] at h
  | cons p rest ih =>
    intro k v hw h
    rw [WFfields, Bool.and_eq_true] at hw
    by_cases hk : p.1 = k
    · rw [lookupM, if_pos hk, Option.some.injEq] at h
      subst h
      exact hw.1
    · rw [lookupM, if_neg hk] at h
      exact ih hw.2 h

theorem vfFields_lookup :
    ∀ {A : List (String × DataType)} {k : String} {v : DataType},
      vfFields A = true → lookupM k A = some v → variantFree v = true := by
  intro A
  induction A with
  | nil => intro k v _ h; simp [lookupM] at h
  | cons p rest ih =>
    intro k v hw h
    rw [vfFields, Bool.and_eq_true] at hw
    by_cases hk : p.1 = k
    · rw [lookupM, if_pos hk, Option.some.injEq] at h
      subst h
      exact hw.1
    · rw [lookupM, if_neg hk] at h
      exact ih hw.2 h

mutual
theorem unify_comm_vfree (a b : DataType)
    (hwa : WFd a = true) (hwb : WFd b = true)
    (hva : variantFree a = true) (hvb : variantFree b = true) :
    DataType.unify a b = DataType.unify b a := by
  by_cases he : a = b
  · rw [he]
  · have hbeq : DataType.beq a b = false := by
      cases hv : DataType.beq a b
      · rfl
      · exact absurd ((beq_iff a b).mp hv) he
    have hbeq' : DataType.beq b a = false := by
      cases hv : DataType.beq b a
      · rfl
      · exact absurd ((beq_iff b a).mp hv).symm he
    cases a <;> cases b <;>
      first
      | exact absurd rfl he
      | (simp [variantFree] at hva; done)
      | (simp [variantFree] at hvb; done)
      | exact unify_object_comm _ _ hwa hwb hva hvb
      | (conv_lhs => rw [DataType.unify.eq_def]
         rw [if_neg (by simp [hbeq])]
         conv_rhs => rw [DataType.unify.eq_def]
         rw [if_neg (by simp [hbeq'])]
         first
         | done
         | (simp only
            first
            | rfl
            | rw [setFromList_pair_comm he]))
termination_by sizeOf a + sizeOf b

theorem unify_object_comm (A B : List (String × DataType))
    (hwa : WFd (.object A) = true) (hwb : WFd (.object B) = true)
    (hva : variantFree (.object A) = true) (hvb : variantFree (.object B) = true) :
    DataType.unify (.object A) (.object B) = DataType.unify (.object B) (.object A) := by
  rw [WFd, Bool.and_eq_true] at hwa hwb
  rw [variantFree] at hva hvb
  have hsA : SortedK A := (keysOrdered_iff A).mp hwa.1
  have hsB : SortedK B := (keysOrdered_iff B).mp hwb.1
  obtain ⟨C1, hC1, hC1s, hC1l⟩ := unify_object_lookup A B hsA hsB
  obtain ⟨C2, hC2, hC2s, hC2l⟩ := unify_object_lookup B A hsB hsA
  rw [hC1, hC2]
  refine congrArg DataType.object (sortedMap_ext C1 C2 hC1s hC2s ?_)
  intro k
  rw [hC1l k, hC2l k]
  cases hA0 : lookupM k A with
  | some av =>
    cases hB0 : lookupM k B with
    | some bv =>
      simp only
      have hm1 : sizeOf av < sizeOf A := lookup_sizeOf_lt hA0
      have hm2 : sizeOf bv < sizeOf B := lookup_sizeOf_lt hB0
      exact congrArg some (unify_comm_vfree av bv
        (WFfields_lookup hwa.2 hA0) (WFfields_lookup hwb.2 hB0)
        (vfFields_lookup hva hA0) (vfFields_lookup hvb hB0))
    | none => simp only
  | none =>
    cases hB0 : lookupM k B with
    | some bv => simp only
    | none => simp only
termination_by sizeOf A + sizeOf B
end

/-! ## Nested-variant freedom -/

theorem mem_insertSet (t : DataType) :
    ∀ (l : List DataType) (x : DataType), x ∈ insertSet t l → x = t ∨ x ∈ l := by
  intro l
  induction l with
  | nil => intro x hx; simpa [insertSet] using hx
  | cons u rest ih =>
    intro x hx
    rw [insertSet] at hx
    rcases hc : DataType.cmp t u with _ | _ | _ <;> rw [hc] at hx
    · rcases List.mem_cons.mp hx with h | h
      · exact Or.inl h
      · exact Or.inr h
    · exact Or.inr hx
    · rcases List.mem_cons.mp hx with h | h
      · exact Or.inr (h ▸ List.mem_cons_self _ _)
      · rcases ih x h with h' | h'
        · exact Or.inl h'
        · exact Or.inr (List.mem_cons_of_mem _ h')

theorem mem_setFromList_aux :
    ∀ (l acc : List DataType) (x : DataType),
      x ∈ l.foldl (fun acc t => insertSet t acc) acc → x ∈ l ∨ x ∈ acc := by
  intro l
  induction l with
  | nil => intro acc x hx; exact Or.inr hx
  | cons t rest ih =>
    intro acc x hx
    rw [List.foldl_cons] at hx
    rcases ih (insertSet t acc) x hx with h | h
    · exact Or.inl (List.mem_cons_of_mem _ h)
    · rcases mem_insertSet t acc x h with h' | h'
      · exact Or.inl (h' ▸ List.mem_cons_self _ _)
      · exact Or.inr h'

theorem mem_setFromList {l : List DataType} {x : DataType}
    (hx : x ∈ setFromList l) : x ∈ l := by
  rcases mem_setFromList_aux l [] x hx with h | h
  · exact h
  · cases h

theorem mem_mapFromList_aux :
    ∀ (l acc : List (String × DataType)) (p : String × DataType),
      p ∈ l.foldl (fun acc q => insertMap q.1 q.2 acc) acc → p ∈ l ∨ p ∈ acc := by
  intro l
  induction l with
  | nil => intro acc p hp; exact Or.inr hp
  | cons q rest ih =>
    intro acc p hp
    rw [List.foldl_cons] at hp
    rcases ih (insertMap q.1 q.2 acc) p hp with h | h
    · exact Or.inl (List.mem_cons_of_mem _ h)
    · rcases mem_insertMap q.1 q.2 acc p h with h' | h'
      · exact Or.inl (by rw [h']; exact List.mem_cons_self _ _)
      · exact Or.inr h'

theorem mem_mapFromList {l : List (String × DataType)} {p : String × DataType}
    (hp : p ∈ mapFromList l) : p ∈ l := by
  rcases mem_mapFromList_aux l [] p hp with h | h
  · exact h
  · cases h

theorem nnFields_iff :
    ∀ (fs : List (String × DataType)),
      nnFields fs = true ↔ ∀ p ∈ fs, noNested p.2 = true := by
  intro fs
  induction fs with
  | nil => simp [nnFields]
  | cons p rest ih => simp [nnFields, ih]

theorem nnOptions_iff :
    ∀ (os : List DataType),
      nnOptions os = true ↔
        ∀ t ∈ os, t.isVariant = false ∧ noNested t = true := by
  intro os
  induction os with
  | nil => simp [nnOptions]
  | cons t rest ih =>
    rw [nnOptions]
    simp only [Bool.and_eq_true, Bool.not_eq_true', List.mem_cons]
    rw [ih]
    constructor
    · rintro ⟨⟨h1, h2⟩, h3⟩ x hx
      rcases hx with hx | hx
      · exact hx ▸ ⟨h1, h2⟩
      · exact h3 x hx
    · intro h
      exact ⟨⟨(h t (Or.inl rfl)).1, (h t (Or.inl rfl)).2⟩,
        fun x hx => h x (Or.inr hx)⟩

theorem vfFields_iff :
    ∀ (fs : List (String × DataType)),
      vfFields fs = true ↔ ∀ p ∈ fs, variantFree p.2 = true := by
  intro fs
  induction fs with
  | nil => simp [vfFields]
  | cons p rest ih => simp [vfFields, ih]

theorem soFields_iff :
    ∀ (fs : List (String × DataType)),
      soFields fs = true ↔ ∀ p ∈ fs, secondOk p.2 = true := by
  intro fs
  induction fs with
  | nil => simp [soFields]
  | cons p rest ih => simp [soFields, ih]

theorem lookup_pair_mem :
    ∀ {l : List (String × DataType)} {k : String} {v : DataType},
      lookupM k l = some v → (k, v) ∈ l := by
  intro l
  induction l with
  | nil => intro k v h; simp [lookupM] at h
  | cons p rest ih =>
    intro k v h
    by_cases hk : p.1 = k
    · rw [lookupM, if_pos hk, Option.some.injEq] at h
      rw [← hk, ← h]
      exact List.mem_cons_self _ _
    · rw [lookupM, if_neg hk] at h
      exact List.mem_cons_of_mem _ (ih h)

theorem pairFields_mem_src :
    ∀ (a sh : List (String × DataType)) (k : String) (va vb : DataType),
      (k, va, vb) ∈ (pairFields a sh).1 →
        (k, va) ∈ a ∧ (vb = .null ∨ ∃ q ∈ sh, q.2 = vb) := by
  intro a
  induction a with
  | nil => intro sh k va vb h; simp [pairFields] at h
  | cons p rest ih =>
    intro sh k va vb h
    rcases p with ⟨k0, v0⟩
    rw [pairFields] at h
    rcases List.mem_cons.mp h with h | h
    · simp only [Prod.mk.injEq] at h
      obtain ⟨hk, hva, hvb⟩ := h
      subst hk
      subst hva
      refine ⟨List.mem_cons_self _ _, ?_⟩
      rw [hvb, removeKey_fst_eq_lookup]
      cases hl : lookupM k sh with
      | none => exact Or.inl rfl
      | some w =>
        right
        exact ⟨(k, w), lookup_pair_mem hl, rfl⟩
    · obtain ⟨hmem, hsrc⟩ := ih (removeKey k0 sh).2 k va vb h
      refine ⟨List.mem_cons_of_mem _ hmem, ?_⟩
      rcases hsrc with hn | ⟨q, hq, hq2⟩
      · exact Or.inl hn
      · exact Or.inr ⟨q, (removeKey_snd_sublist k0 sh).mem hq, hq2⟩

theorem noNested_pair_variant {a b : DataType}
    (ha : a.isVariant = false) (hb : b.isVariant = false)
    (hna : noNested a = true) (hnb : noNested b = true) :
    noNested (.variant (setFromList [a, b])) = true := by
  rw [noNested, nnOptions_iff]
  intro t ht
  rcases List.mem_cons.mp (mem_setFromList ht) with h | h
  · rw [h]; exact ⟨ha, hna⟩
  · rw [List.mem_singleton.mp h]; exact ⟨hb, hnb⟩

theorem unify_variant_left_noNested (types : List DataType) (b : DataType)
    (hbeqf : DataType.beq (.variant types) b = false)
    (hna : noNested (.variant types) = true) (hnb : noNested b = true)
    (hsb : secondOk b = true) :
    noNested (DataType.unify (.variant types) b) = true := by
  have hbv : b.isVariant = false := by
    cases b <;> first | rfl | simp [secondOk] at hsb
  rw [DataType.unify.eq_def, if_neg (by simp [hbeqf])]
  simp only
  by_cases he : types.isEmpty
  · rw [if_pos he]
    exact hnb
  · rw [if_neg he]
    by_cases hc : containsType types b
    · rw [if_pos hc]
      exact hna
    · rw [if_neg hc]
      rw [noNested] at hna ⊢
      rw [nnOptions_iff] at hna ⊢
      intro t ht
      have hmem := mem_setFromList ht
      rcases List.mem_append.mp hmem with h | h
      · exact hna t h
      · rw [List.mem_singleton.mp h]
        exact ⟨hbv, hnb⟩

mutual
theorem unify_noNested (a b : DataType)
    (hna : noNested a = true) (hnb : noNested b = true)
    (hsb : secondOk b = true) :
    noNested (DataType.unify a b) = true := by
  by_cases he : DataType.beq a b = true
  · rw [DataType.unify.eq_def, if_pos he]
    exact hna
  · have he' : DataType.beq a b = false := by
      cases hv : DataType.beq a b
      · rfl
      · exact absurd hv he
    cases a <;> cases b <;>
      first
      | (simp [secondOk] at hsb; done)
      | exact unify_variant_left_noNested _ _ he' hna hnb hsb
      | exact unify_object_noNested _ _ he' hna hnb hsb
      | (rw [DataType.unify.eq_def, if_neg (by simp [he'])]
         first
         | done
         | (simp only
            first
            | exact noNested_pair_variant rfl rfl hna hnb
            | simp [noNested]))
termination_by sizeOf a + sizeOf b

theorem unify_object_noNested (A B : List (String × DataType))
    (hbeqf : DataType.beq (.object A) (.object B) = false)
    (hna : noNested (.object A) = true) (hnb : noNested (.object B) = true)
    (hsb : secondOk (.object B) = true) :
    noNested (DataType.unify (.object A) (.object B)) = true := by
  rw [unify_object_object A B hbeqf]
  rw [noNested, nnFields_iff]
  rw [noNested] at hna hnb
  rw [secondOk] at hsb
  rw [nnFields_iff] at hna hnb
  rw [soFields_iff] at hsb
  intro p hp
  have hpL := mem_mapFromList hp
  rcases List.mem_append.mp hpL with h | h
  · rcases List.mem_map.mp h with ⟨x, hx, hpx⟩
    rcases x with ⟨k, va, vb⟩
    rw [← hpx]
    simp only
    have hsz := pairFields_mem_sizeOf A _ k va vb hx
    have hsz2 : sizeOf ((B.partition (fun p => containsKey p.1 A)).1) ≤ sizeOf B :=
      partition_fst_sizeOf _ B
    obtain ⟨hmemA, hsrc⟩ := pairFields_mem_src A _ k va vb hx
    have hnva : noNested va = true := hna (k, va) hmemA
    have hnvb : noNested vb = true := by
      rcases hsrc with hn | ⟨q, hq, hq2⟩
      · rw [hn]; rfl
      · rw [← hq2]
        exact hnb q (partition_fst_mem _ B q hq)
    have hsvb : secondOk vb = true := by
      rcases hsrc with hn | ⟨q, hq, hq2⟩
      · rw [hn]; rfl
      · rw [← hq2]
        exact hsb q (partition_fst_mem _ B q hq)
    exact unify_noNested va vb hnva hnvb hsvb
  · rcases List.mem_map.mp h with ⟨x, hx, hpx⟩
    rcases x with ⟨xk, xv⟩
    rw [← hpx]
    simp only
    have hxB : (xk, xv) ∈ B := partition_snd_mem _ B _ hx
    have hsz : sizeOf (xk, xv) < sizeOf B := List.sizeOf_lt_of_mem hxB
    have hsz2 : sizeOf xv < sizeOf B := by
      simp at hsz
      omega
    have hA1 : (1 : Nat) ≤ sizeOf A := sizeOf_pos_list A
    exact unify_noNested xv .null (hnb (xk, xv) hxB) rfl rfl
termination_by sizeOf A + sizeOf B
decreasing_by all_goals (first | omega | (simp_wf; omega) | (simp; omega))
end

theorem foldl_unify_noNested :
    ∀ (ts : List DataType) (acc : DataType),
      noNested acc = true →
      (∀ t ∈ ts, noNested t = true ∧ secondOk t = true) →
      noNested (ts.foldl DataType.unify acc) = true := by
  intro ts
  induction ts with
  | nil => intro acc h _; simpa using h
  | cons t rest ih =>
    intro acc hacc hall
    rw [List.foldl_cons]
    exact ih (DataType.unify acc t)
      (unify_noNested acc t hacc (hall t (List.mem_cons_self t rest)).1
        (hall t (List.mem_cons_self t rest)).2)
      (fun u hu => hall u (List.mem_cons_of_mem t hu))

theorem fromJson_wellFormed : ∀ (v : JsonValue),
    noNested (DataType.fromJsonValue v) = true ∧
      secondOk (DataType.fromJsonValue v) = true
  | .null => by
    rw [DataType.fromJsonValue]
    exact ⟨rfl, rfl⟩
  | .short s => by
    rw [DataType.fromJsonValue]
    exact ⟨rfl, rfl⟩
  | .string s => by
    rw [DataType.fromJsonValue]
    exact ⟨rfl, rfl⟩
  | .number q => by
    rw [DataType.fromJsonValue]
    split
    · exact ⟨rfl, rfl⟩
    · exact ⟨rfl, rfl⟩
  | .boolean b => by
    rw [DataType.fromJsonValue]
    exact ⟨rfl, rfl⟩
  | .object entries => by
    rw [DataType.fromJsonValue]
    constructor
    · rw [noNested, nnFields_iff]
      intro p hp
      rcases List.mem_map.mp (mem_mapFromList hp) with ⟨x, hx, hpx⟩
      rcases x with ⟨⟨xk, xj⟩, hxmem⟩
      rw [← hpx]
      simp only
      have hsz : sizeOf (xk, xj) < sizeOf entries := List.sizeOf_lt_of_mem hxmem
      have hsz2 : sizeOf xj < sizeOf entries := by
        simp at hsz
        omega
      exact (fromJson_wellFormed xj).1
    · rw [secondOk, soFields_iff]
      intro p hp
      rcases List.mem_map.mp (mem_mapFromList hp) with ⟨x, hx, hpx⟩
      rcases x with ⟨⟨xk, xj⟩, hxmem⟩
      rw [← hpx]
      simp only
      have hsz : sizeOf (xk, xj) < sizeOf entries := List.sizeOf_lt_of_mem hxmem
      have hsz2 : sizeOf xj < sizeOf entries := by
        simp at hsz
        omega
      exact (fromJson_wellFormed xj).2
  | .array elems => by
    have hall : ∀ u ∈ elems.attach.map (fun x => DataType.fromJsonValue x.1),
        noNested u = true ∧ secondOk u = true := by
      intro u hu
      rcases List.mem_map.mp hu with ⟨x, hx, hux⟩
      rcases x with ⟨e, he⟩
      have hsz : sizeOf e < sizeOf elems := List.sizeOf_lt_of_mem he
      rw [← hux]
      exact fromJson_wellFormed e
    rw [DataType.fromJsonValue]
    constructor
    · rw [noNested]
      cases hm : elems.attach.map (fun x => DataType.fromJsonValue x.1) with
      | nil => rfl
      | cons h0 t0 =>
        rw [hm] at hall
        simp only
        exact foldl_unify_noNested t0 h0 (hall h0 (List.mem_cons_self h0 t0)).1
          (fun u hu => hall u (List.mem_cons_of_mem h0 hu))
    · cases hm : elems.attach.map (fun x => DataType.fromJsonValue x.1) with
      | nil => rfl
      | cons h0 t0 => rfl
termination_by v => sizeOf v
decreasing_by all_goals (first | omega | (simp_wf; omega))

/-! ## Claims -/

/-- C1, counterexample: `unify` is not commutative.  A `Variant` is only
treated specially as the *left* operand, so `unify(Variant(∅), Int) = Int`
while `unify(Int, Variant(∅))` falls through to the final match arm and
yields `Variant({Int, Variant(∅)})`. -/
theorem claim1_counterexample :
    DataType.unify (.variant []) .int ≠ DataType.unify .int (.variant []) := by
  have h1 : DataType.unify (.variant []) .int = .int := unify_variant_left_empty .int
  have h2 : DataType.unify .int (.variant []) = .variant [.int, .variant []] := by
    simp [DataType.unify, DataType.beq, setFromList, insertSet, DataType.cmp,
      DataType.ctorIdx]
  rw [h1, h2]
  simp

/-- C1, amended: `unify(a, b) = unify(b, a)` does hold for all well-formed
operands that contain no `Variant` node anywhere (the asymmetric treatment
of `Variant` operands is the only source of non-commutativity). -/
theorem claim1_amended :
    ∀ (a b : DataType), WFd a = true → WFd b = true →
      variantFree a = true → variantFree b = true →
      DataType.unify a b = DataType.unify b a :=
  fun a b => unify_comm_vfree a b

/-- C1, witness for the amended theorem at concrete objects. -/
theorem claim1_amended_witness :
    DataType.unify (.object [("a", .int)]) (.object [("a", .bool), ("b", .string)]) =
      DataType.unify (.object [("a", .bool), ("b", .string)]) (.object [("a", .int)]) :=
  claim1_amended (.object [("a", .int)]) (.object [("a", .bool), ("b", .string)])
    (by decide) (by decide) (by decide) (by decide)

/-- C2, counterexample: the empty `Variant` is not a *right* identity:
`unify(Int, Variant(∅))` is `Variant({Int, Variant(∅)})`, not `Int`,
because only a left `Variant` operand is treated specially. -/
theorem claim2_counterexample : DataType.unify .int (.variant []) ≠ .int := by
  have h2 : DataType.unify .int (.variant []) = .variant [.int, .variant []] := by
    simp [DataType.unify, DataType.beq, setFromList, insertSet, DataType.cmp,
      DataType.ctorIdx]
  rw [h2]
  simp

/-- C2, amended: the empty `Variant` is a *left* identity for
unification: `unify(Variant(∅), t) = t` for every type `t`. -/
theorem claim2_amended : ∀ (t : DataType), DataType.unify (.variant []) t = t :=
  unify_variant_left_empty

/-- C3, counterexample: unifying two non-empty `Variant`s does not
flatten: `unify(Variant({Int}), Variant({String}))` is
`Variant({Int, Variant({String})})`, a `Variant` directly containing
another `Variant`. -/
theorem claim3_counterexample :
    noNested (DataType.unify (.variant [.int]) (.variant [.string])) = false := by
  have h : DataType.unify (.variant [.int]) (.variant [.string]) =
      .variant [.int, .variant [.string]] := by
    simp [DataType.unify, DataType.beq, beqOptions, containsType, setFromList,
      insertSet, DataType.cmp, cmpOptions, DataType.ctorIdx]
  rw [h]
  decide

/-- C3, amended: `unify` does preserve nested-variant freedom whenever its
second operand is shaped like a freshly inferred type (not a `Variant`
at the top or directly inside object fields, the `secondOk` predicate) —
which is the only way `infer` ever calls it — and every type
`from_json_value` produces is nested-variant free.  With a `Variant` as
the second operand, however, `unify` can nest variants (see the
counterexample). -/
theorem claim3_amended :
    (∀ (a b : DataType), noNested a = true → noNested b = true →
        secondOk b = true → noNested (DataType.unify a b) = true) ∧
      ∀ (v : JsonValue), noNested (DataType.fromJsonValue v) = true :=
  ⟨fun a b => unify_noNested a b, fun v => (fromJson_wellFormed v).1⟩

/-- C3, witness for the amended theorem at a concrete input. -/
theorem claim3_amended_witness :
    noNested (DataType.unify (.variant [.int]) .string) = true :=
  claim3_amended.1 (.variant [.int]) .string (by decide) (by decide) (by decide)

/-- C4: unifying two objects always yields an object whose field-name set
is the union of both; a shared field maps to the unification of the two
field types, a one-sided field maps to the unification of that type with
`Null`, and no field is dropped.  Stated as a complete lookup
characterization of the resulting field map, for any two field maps
satisfying the `BTreeMap` iteration invariant. -/
theorem claim4 (A B : List (String × DataType))
    (hA : keysOrdered A = true) (hB : keysOrdered B = true) :
    ∃ C, DataType.unify (.object A) (.object B) = .object C ∧
      ∀ k, lookupM k C =
        (match lookupM k A, lookupM k B with
          | some av, some bv => some (DataType.unify av bv)
          | some av, none => some (DataType.unify av .null)
          | none, some bv => some (DataType.unify bv .null)
          | none, none => none) := by
  obtain ⟨C, h1, _, h2⟩ := unify_object_lookup A B
    ((keysOrdered_iff A).mp hA) ((keysOrdered_iff B).mp hB)
  exact ⟨C, h1, h2⟩

/-- C4, witness: instantiation at two disjoint singleton objects. -/
theorem claim4_witness :
    ∃ C, DataType.unify (.object [("a", .int)]) (.object [("b", .bool)]) = .object C ∧
      ∀ k, lookupM k C =
        (match lookupM k [("a", DataType.int)], lookupM k [("b", DataType.bool)] with
          | some av, some bv => some (DataType.unify av bv)
          | some av, none => some (DataType.unify av .null)
          | none, some bv => some (DataType.unify bv .null)
          | none, none => none) :=
  claim4 [("a", .int)] [("b", .bool)] (by decide) (by decide)

/-- C5: end-to-end scenario.  Inferring the array
`[{"foo":"bar"}, {"foo":123,"baz":true}]` yields
`Array(Object({baz: Variant({Null, Bool}), foo: Variant({String, Int})}))`
(`baz`'s missing first occurrence becomes `Bool ∪ Null`), and declaring
that type appends exactly one record declaration (`struct Data0`), whose
`baz` member references `Data1`, a two-option union declaration. -/
theorem claim5 :
    DataType.fromJsonValue (.array [.object [("foo", .string "bar")],
        .object [("foo", .number 123), ("baz", .boolean true)]]) =
      .array (.object [("baz", .variant [.null, .bool]),
        ("foo", .variant [.string, .int])]) ∧
    DataType.declare (.array (.object [("baz", .variant [.null, .bool]),
        ("foo", .variant [.string, .int])])) ⟨0, []⟩ =
      ("Vec<Data0>",
        ⟨3, ["enum Data1 \x7b\n    Option0(()),\n    Option1(bool),\n\x7d",
          "enum Data2 \x7b\n    Option0(String),\n    Option1(i32),\n\x7d",
          "struct Data0 \x7b\n    pub baz: Data1,\n    pub foo: Data2,\n\x7d"]⟩) := by
  constructor
  · simp [DataType.fromJsonValue, DataType.unify, DataType.beq, beqFields, beqOptions,
      mapFromList, insertMap, strLt, charsLt, setFromList, insertSet, DataType.cmp,
      cmpFields, cmpOptions, strCmp, charsCmp, DataType.ctorIdx, containsKey,
      containsType, pairFields, removeKey, lookupM, List.attach, List.attachWith,
      List.pmap]
  · decide

/-- C9: in the `Object`/`Object` branch of `unify`, after the fields of
`a` have been folded against the `shared` part of `b`'s partition, the
residual `shared` map is empty — the `debug_assert!(shared.is_empty())`
of the source holds for every pair of well-formed field maps. -/
theorem claim9 (a b : List (String × DataType))
    (ha : keysOrdered a = true) (hb : keysOrdered b = true) :
    (pairFields a ((b.partition (fun p => containsKey p.1 a)).1)).2 = [] := by
  apply pairFields_snd_empty
  · intro p hp
    rw [List.partition_eq_filter_filter] at hp
    exact (List.mem_filter.mp hp).2
  · rw [List.partition_eq_filter_filter]
    exact ((List.filter_sublist b).map Prod.fst).nodup
      ((keysOrdered_iff b).mp hb).keysNodup

/-- C9, witness: instantiation at concrete overlapping objects. -/
theorem claim9_witness :
    (pairFields [("a", DataType.int)]
      (([("a", DataType.bool), ("b", DataType.string)].partition
        (fun p => containsKey p.1 [("a", DataType.int)])).1)).2 = [] :=
  claim9 [("a", .int)] [("a", .bool), ("b", .string)] (by decide) (by decide)

/-! ## String and decimal-numeral lemmas for the emitter -/

theorem str_assoc (a b c : String) : (a ++ b) ++ c = a ++ (b ++ c) := by
  apply String.ext
  simp [String.data_append, List.append_assoc]

/-- The digit characters `Nat.toDigitsCore` can emit in base 10. -/
def decDigits : List Char :=
  ['0', '1', '2', '3', '4', '5', '6', '7', '8', '9']

theorem digitChar_mem_decDigits (m : Nat) (h : m < 10) :
    Nat.digitChar m ∈ decDigits := by
  interval_cases m <;> decide

theorem toDigitsCore_digits :
    ∀ (fuel n : Nat) (ds : List Char), (∀ c ∈ ds, c ∈ decDigits) →
      ∀ c ∈ Nat.toDigitsCore 10 fuel n ds, c ∈ decDigits := by
  intro fuel
  induction fuel with
  | zero => intro n ds hds c hc; exact hds c hc
  | succ fuel ih =>
    intro n ds hds c hc
    rw [Nat.toDigitsCore] at hc
    have hdig : Nat.digitChar (n % 10) ∈ decDigits :=
      digitChar_mem_decDigits (n % 10) (Nat.mod_lt n (by omega))
    by_cases hz : n / 10 = 0
    · rw [if_pos hz] at hc
      rcases List.mem_cons.mp hc with h | h
      · rw [h]; exact hdig
      · exact hds c h
    · rw [if_neg hz] at hc
      refine ih (n / 10) (Nat.digitChar (n % 10) :: ds) ?_ c hc
      intro c2 hc2
      rcases List.mem_cons.mp hc2 with h | h
      · rw [h]; exact hdig
      · exact hds c2 h

theorem repr_chars_digits (n : Nat) :
    ∀ c ∈ (Nat.repr n).data, c ∈ decDigits := by
  intro c hc
  have : (Nat.repr n).data = Nat.toDigits 10 n := by
    rw [Nat.repr]
    rfl
  rw [this, Nat.toDigits] at hc
  exact toDigitsCore_digits (n + 1) n [] (by intro c2 hc2; cases hc2) c hc

theorem repr_no_space (n : Nat) : ∀ c ∈ (Nat.repr n).data, c ≠ ' ' := by
  intro c hc he
  have hmem := repr_chars_digits n c hc
  rw [he] at hmem
  exact absurd hmem (by decide)

/-- Decimal value of a digit string, used to invert `Nat.repr`. -/
def digitsVal (cs : List Char) : Nat :=
  cs.foldl (fun a c => a * 10 + (c.toNat - 48)) 0

theorem digitsVal_append_aux :
    ∀ (cs : List Char) (a : Nat),
      cs.foldl (fun a c => a * 10 + (c.toNat - 48)) a =
        a * 10 ^ cs.length + digitsVal cs := by
  intro cs
  induction cs with
  | nil => intro a; simp [digitsVal]
  | cons c rest ih =>
    intro a
    rw [List.foldl_cons, ih]
    have hd : digitsVal (c :: rest) =
        (0 * 10 + (c.toNat - 48)) * 10 ^ rest.length + digitsVal rest := by
      rw [digitsVal, List.foldl_cons, ih]
    rw [hd]
    simp only [List.length_cons, Nat.pow_succ]
    ring

theorem digitChar_val (m : Nat) (h : m < 10) :
    (Nat.digitChar m).toNat - 48 = m := by
  interval_cases m <;> decide

theorem toDigitsCore_val :
    ∀ (fuel n : Nat) (ds : List Char), n < fuel →
      digitsVal (Nat.toDigitsCore 10 fuel n ds) =
        digitsVal ds + n * 10 ^ ds.length := by
  intro fuel
  induction fuel with
  | zero => intro n ds h; omega
  | succ fuel ih =>
    intro n ds h
    rw [Nat.toDigitsCore]
    by_cases hz : n / 10 = 0
    · rw [if_pos hz]
      rw [digitsVal, List.foldl_cons, digitsVal_append_aux]
      rw [digitChar_val (n % 10) (Nat.mod_lt n (by omega))]
      have hn : n % 10 = n := by omega
      rw [hn]
      rw [digitsVal]
      ring
    · rw [if_neg hz]
      have h1 : n / 10 < fuel := by omega
      rw [ih (n / 10) _ h1]
      rw [digitsVal, List.foldl_cons, digitsVal_append_aux]
      rw [digitChar_val (n % 10) (Nat.mod_lt n (by omega))]
      simp only [List.length_cons, Nat.pow_succ]
      set q := n / 10 with hq
      set r := n % 10 with hr
      have hn : n = 10 * q + r := by omega
      rw [hn]
      ring

theorem repr_val (n : Nat) : digitsVal (Nat.repr n).data = n := by
  have hd : (Nat.repr n).data = Nat.toDigitsCore 10 (n + 1) n [] := by
    rw [Nat.repr]
    rfl
  rw [hd, toDigitsCore_val (n + 1) n [] (by omega)]
  simp [digitsVal]

theorem repr_injective {a b : Nat} (h : Nat.repr a = Nat.repr b) : a = b := by
  have h2 := congrArg (fun s => digitsVal s.data) h
  simpa [repr_val] using h2

/-- The fresh names the emitter assigns: `Data0`, `Data1`, … -/
def declName (n : Nat) : String := "Data" ++ Nat.repr n

theorem declName_injective {a b : Nat} (h : declName a = declName b) : a = b := by
  have hd := congrArg String.data h
  rw [declName, declName, String.data_append, String.data_append] at hd
  have h3 : (Nat.repr a).data = (Nat.repr b).data := by
    exact List.append_cancel_left hd
  exact repr_injective (String.ext h3)

/-- The name a declaration string carries: the second space-separated
word (`struct NAME ...` / `enum NAME ...`). -/
def nameOf (s : String) : String :=
  String.mk (((s.data.dropWhile (fun c => c != ' ')).drop 1).takeWhile (fun c => c != ' '))

theorem dropWhile_all {p : Char → Bool} :
    ∀ (l : List Char), (∀ c ∈ l, p c = true) → l.dropWhile p = [] := by
  intro l
  induction l with
  | nil => intro _; rfl
  | cons c rest ih =>
    intro h
    rw [List.dropWhile_cons, if_pos (h c (List.mem_cons_self c rest))]
    exact ih (fun c2 hc2 => h c2 (List.mem_cons_of_mem c hc2))

theorem takeWhile_all {p : Char → Bool} :
    ∀ (l : List Char), (∀ c ∈ l, p c = true) → l.takeWhile p = l := by
  intro l
  induction l with
  | nil => intro _; rfl
  | cons c rest ih =>
    intro h
    rw [List.takeWhile_cons, if_pos (h c (List.mem_cons_self c rest))]
    rw [ih (fun c2 hc2 => h c2 (List.mem_cons_of_mem c hc2))]

theorem dropWhile_append_all {p : Char → Bool} (w l : List Char)
    (hw : ∀ c ∈ w, p c = true) :
    (w ++ l).dropWhile p = l.dropWhile p := by
  rw [List.dropWhile_append]
  rw [dropWhile_all w hw]
  simp

theorem takeWhile_append_stop {p : Char → Bool} (w rest : List Char)
    (hw : ∀ c ∈ w, p c = true) (c : Char) (hc : p c = false) :
    (w ++ c :: rest).takeWhile p = w := by
  rw [List.takeWhile_append]
  rw [takeWhile_all w hw]
  simp [List.takeWhile_cons, hc]

theorem nameOf_eq (nm : String) (hnm : ∀ c ∈ nm.data, c ≠ ' ')
    (w rest : List Char) (hw : ∀ c ∈ w, (c != ' ') = true) :
    nameOf ⟨w ++ ' ' :: (nm.data ++ ' ' :: rest)⟩ = nm := by
  rw [nameOf]
  simp only
  rw [dropWhile_append_all w _ hw]
  rw [List.dropWhile_cons]
  rw [if_neg (by simp)]
  simp only [List.drop_succ_cons, List.drop_zero]
  rw [takeWhile_append_stop nm.data rest
    (fun c hc => by simpa using hnm c hc) ' ' (by simp)]

theorem declName_no_space (n : Nat) : ∀ c ∈ (declName n).data, c ≠ ' ' := by
  intro c hc
  rw [declName, String.data_append] at hc
  rcases List.mem_append.mp hc with h | h
  · simp only [List.mem_cons, List.not_mem_nil, or_false] at h
    rcases h with rfl | rfl | rfl | rfl <;> decide
  · exact repr_no_space n c h

theorem nameOf_structDecl (n : Nat) (txt : String) :
    nameOf (((("struct " ++ declName n) ++ " \x7b\n") ++ txt) ++ "\x7d") = declName n := by
  have he : (((("struct " ++ declName n) ++ " \x7b\n") ++ txt) ++ "\x7d") =
      (⟨"struct".data ++ ' ' :: ((declName n).data ++
        ' ' :: '\x7b' :: '\n' :: (txt.data ++ "\x7d".data))⟩ : String) := by
    apply String.ext
    simp only [String.data_append, List.append_assoc]
    rfl
  rw [he]
  exact nameOf_eq (declName n) (declName_no_space n) "struct".data
    ('\x7b' :: '\n' :: (txt.data ++ "\x7d".data)) (by decide)

theorem nameOf_enumDecl (n : Nat) (txt : String) :
    nameOf (((("enum " ++ declName n) ++ " \x7b\n") ++ txt) ++ "\x7d") = declName n := by
  have he : (((("enum " ++ declName n) ++ " \x7b\n") ++ txt) ++ "\x7d") =
      (⟨"enum".data ++ ' ' :: ((declName n).data ++
        ' ' :: '\x7b' :: '\n' :: (txt.data ++ "\x7d".data))⟩ : String) := by
    apply String.ext
    simp only [String.data_append, List.append_assoc]
    rfl
  rw [he]
  exact nameOf_eq (declName n) (declName_no_space n) "enum".data
    ('\x7b' :: '\n' :: (txt.data ++ "\x7d".data)) (by decide)

/-! ## Pre-order and post-order index bookkeeping of `declare` -/

mutual
/-- The fresh name indices `declare` consumes for the composite nodes
of a tree (starting the counter at `n`), listed in the order the
declaration strings are *pushed*: children first, then the node
itself (post-order). -/
def pushIdxs : DataType → Nat → List Nat
  | .object fs, n => fieldsPush fs (n + 1) ++ [n]
  | .array e, n => pushIdxs e n
  | .variant os, n => optionsPush os (n + 1) ++ [n]
  | _, _ => []

/-- `pushIdxs` across a field list, threading the index counter. -/
def fieldsPush : List (String × DataType) → Nat → List Nat
  | [], _ => []
  | p :: rest, n => pushIdxs p.2 n ++ fieldsPush rest (n + compCount p.2)

/-- `pushIdxs` across an option list, threading the index counter. -/
def optionsPush : List DataType → Nat → List Nat
  | [], _ => []
  | t :: rest, n => pushIdxs t n ++ optionsPush rest (n + compCount t)
end

mutual
/-- The same indices in the order the composite nodes are *first
visited*: the node itself, then its children (pre-order). -/
def preIdxs : DataType → Nat → List Nat
  | .object fs, n => n :: fieldsPre fs (n + 1)
  | .array e, n => preIdxs e n
  | .variant os, n => n :: optionsPre os (n + 1)
  | _, _ => []

/-- `preIdxs` across a field list, threading the index counter. -/
def fieldsPre : List (String × DataType) → Nat → List Nat
  | [], _ => []
  | p :: rest, n => preIdxs p.2 n ++ fieldsPre rest (n + compCount p.2)

/-- `preIdxs` across an option list, threading the index counter. -/
def optionsPre : List DataType → Nat → List Nat
  | [], _ => []
  | t :: rest, n => preIdxs t n ++ optionsPre rest (n + compCount t)
end

mutual
theorem preIdxs_range : ∀ (t : DataType) (n : Nat),
    preIdxs t n = List.range' n (compCount t)
  | .null, _ => rfl
  | .string, _ => rfl
  | .int, _ => rfl
  | .float, _ => rfl
  | .bool, _ => rfl
  | .object fs, n => by
    rw [preIdxs, fieldsPre_range fs (n + 1), compCount, Nat.add_comm 1 (ccFields fs)]
    rfl
  | .array e, n => by rw [preIdxs, compCount]; exact preIdxs_range e n
  | .variant os, n => by
    rw [preIdxs, optionsPre_range os (n + 1), compCount, Nat.add_comm 1 (ccOptions os)]
    rfl

theorem fieldsPre_range : ∀ (fs : List (String × DataType)) (n : Nat),
    fieldsPre fs n = List.range' n (ccFields fs)
  | [], _ => rfl
  | p :: rest, n => by
    rw [fieldsPre, preIdxs_range p.2 n, fieldsPre_range rest (n + compCount p.2),
      ccFields, Nat.add_comm (compCount p.2) (ccFields rest)]
    exact List.range'_append_1 ..

theorem optionsPre_range : ∀ (os : List DataType) (n : Nat),
    optionsPre os n = List.range' n (ccOptions os)
  | [], _ => rfl
  | t :: rest, n => by
    rw [optionsPre, preIdxs_range t n, optionsPre_range rest (n + compCount t),
      ccOptions, Nat.add_comm (compCount t) (ccOptions rest)]
    exact List.range'_append_1 ..
end

mutual
theorem pushIdxs_perm : ∀ (t : DataType) (n : Nat),
    (pushIdxs t n).Perm (List.range' n (compCount t))
  | .null, _ => List.Perm.refl _
  | .string, _ => List.Perm.refl _
  | .int, _ => List.Perm.refl _
  | .float, _ => List.Perm.refl _
  | .bool, _ => List.Perm.refl _
  | .object fs, n => by
    rw [pushIdxs, compCount]
    refine ((fieldsPush_perm fs (n + 1)).append (List.Perm.refl [n])).trans ?_
    refine List.perm_append_comm.trans ?_
    rw [Nat.add_comm 1 (ccFields fs)]
    exact List.Perm.refl _
  | .array e, n => by rw [pushIdxs, compCount]; exact pushIdxs_perm e n
  | .variant os, n => by
    rw [pushIdxs, compCount]
    refine ((optionsPush_perm os (n + 1)).append (List.Perm.refl [n])).trans ?_
    refine List.perm_append_comm.trans ?_
    rw [Nat.add_comm 1 (ccOptions os)]
    exact List.Perm.refl _

theorem fieldsPush_perm : ∀ (fs : List (String × DataType)) (n : Nat),
    (fieldsPush fs n).Perm (List.range' n (ccFields fs))
  | [], _ => List.Perm.refl _
  | p :: rest, n => by
    rw [fieldsPush, ccFields]
    refine ((pushIdxs_perm p.2 n).append (fieldsPush_perm rest (n + compCount p.2))).trans ?_
    rw [List.range'_append_1, Nat.add_comm (ccFields rest) (compCount p.2)]

theorem optionsPush_perm : ∀ (os : List DataType) (n : Nat),
    (optionsPush os n).Perm (List.range' n (ccOptions os))
  | [], _ => List.Perm.refl _
  | t :: rest, n => by
    rw [optionsPush, ccOptions]
    refine ((pushIdxs_perm t n).append (optionsPush_perm rest (n + compCount t))).trans ?_
    rw [List.range'_append_1, Nat.add_comm (ccOptions rest) (compCount t)]
end

mutual
theorem declare_next : ∀ (t : DataType) (d : Decls),
    (DataType.declare t d).2.next_index = d.next_index + compCount t
  | .null, _ => rfl
  | .string, _ => rfl
  | .int, _ => rfl
  | .float, _ => rfl
  | .bool, _ => rfl
  | .object fs, d => by
    simp only [DataType.declare, compCount]
    rw [declareFields_next fs _ _]
    show d.next_index + 1 + ccFields fs = d.next_index + (1 + ccFields fs)
    omega
  | .array e, d => by
    simp only [DataType.declare, compCount]
    exact declare_next e d
  | .variant os, d => by
    simp only [DataType.declare, compCount]
    rw [declareOptions_next os _ _ _]
    show d.next_index + 1 + ccOptions os = d.next_index + (1 + ccOptions os)
    omega

theorem declareFields_next : ∀ (fs : List (String × DataType)) (s : String) (d : Decls),
    (declareFields fs s d).2.next_index = d.next_index + ccFields fs
  | [], _, _ => rfl
  | (m, mt) :: rest, s, d => by
    simp only [declareFields, ccFields]
    rw [declareFields_next rest _ _, declare_next mt d]
    omega

theorem declareOptions_next : ∀ (os : List DataType) (i : Nat) (s : String) (d : Decls),
    (declareOptions os i s d).2.next_index = d.next_index + ccOptions os
  | [], _, _, _ => rfl
  | t :: rest, i, s, d => by
    simp only [declareOptions, ccOptions]
    rw [declareOptions_next rest _ _ _, declare_next t d]
    omega
end

mutual
theorem declare_decls : ∀ (t : DataType) (d : Decls),
    ∃ tail, (DataType.declare t d).2.decls = d.decls ++ tail ∧
      tail.map nameOf = (pushIdxs t d.next_index).map declName
  | .null, d => ⟨[], by simp [DataType.declare, pushIdxs]⟩
  | .string, d => ⟨[], by simp [DataType.declare, pushIdxs]⟩
  | .int, d => ⟨[], by simp [DataType.declare, pushIdxs]⟩
  | .float, d => ⟨[], by simp [DataType.declare, pushIdxs]⟩
  | .bool, d => ⟨[], by simp [DataType.declare, pushIdxs]⟩
  | .object fs, d => by
    simp only [DataType.declare]
    obtain ⟨txt, tail, hs, hd, hm⟩ :=
      declareFields_decls fs ("struct " ++ ("Data" ++ Nat.repr d.next_index) ++ " \x7b\n")
        { d with next_index := d.next_index + 1 }
    refine ⟨tail ++ [(("struct " ++ ("Data" ++ Nat.repr d.next_index) ++ " \x7b\n") ++ txt)
      ++ "\x7d"], ?_, ?_⟩
    · rw [hd, hs]
      simp [List.append_assoc]
    · rw [List.map_append, hm, pushIdxs, List.map_append]
      congr 1
      simp only [List.map_cons, List.map_nil]
      congr 1
      exact nameOf_structDecl d.next_index txt
  | .array e, d => by
    obtain ⟨tail, h1, h2⟩ := declare_decls e d
    exact ⟨tail, by simp only [DataType.declare]; exact h1,
      by rw [pushIdxs]; exact h2⟩
  | .variant os, d => by
    simp only [DataType.declare]
    obtain ⟨txt, tail, hs, hd, hm⟩ :=
      declareOptions_decls os 0 ("enum " ++ ("Data" ++ Nat.repr d.next_index) ++ " \x7b\n")
        { d with next_index := d.next_index + 1 }
    refine ⟨tail ++ [(("enum " ++ ("Data" ++ Nat.repr d.next_index) ++ " \x7b\n") ++ txt)
      ++ "\x7d"], ?_, ?_⟩
    · rw [hd, hs]
      simp [List.append_assoc]
    · rw [List.map_append, hm, pushIdxs, List.map_append]
      congr 1
      simp only [List.map_cons, List.map_nil]
      congr 1
      exact nameOf_enumDecl d.next_index txt

theorem declareFields_decls : ∀ (fs : List (String × DataType)) (s : String) (d : Decls),
    ∃ txt tail, (declareFields fs s d).1 = s ++ txt ∧
      (declareFields fs s d).2.decls = d.decls ++ tail ∧
      tail.map nameOf = (fieldsPush fs d.next_index).map declName
  | [], s, d => ⟨"", [], by simp [declareFields, fieldsPush]⟩
  | (m, mt) :: rest, s, d => by
    simp only [declareFields]
    obtain ⟨tail1, hd1, hm1⟩ := declare_decls mt d
    obtain ⟨txt2, tail2, hs2, hd2, hm2⟩ :=
      declareFields_decls rest
        (s ++ "    pub " ++ m ++ ": " ++ (DataType.declare mt d).1 ++ ",\n")
        (DataType.declare mt d).2
    refine ⟨"    pub " ++ m ++ ": " ++ (DataType.declare mt d).1 ++ ",\n" ++ txt2,
      tail1 ++ tail2, ?_, ?_, ?_⟩
    · rw [hs2]
      simp [str_assoc]
    · rw [hd2, hd1, List.append_assoc]
    · rw [List.map_append, hm1, hm2, fieldsPush, List.map_append, declare_next mt d]

theorem declareOptions_decls : ∀ (os : List DataType) (i : Nat) (s : String) (d : Decls),
    ∃ txt tail, (declareOptions os i s d).1 = s ++ txt ∧
      (declareOptions os i s d).2.decls = d.decls ++ tail ∧
      tail.map nameOf = (optionsPush os d.next_index).map declName
  | [], _, s, d => ⟨"", [], by simp [declareOptions, optionsPush]⟩
  | t :: rest, i, s, d => by
    simp only [declareOptions]
    obtain ⟨tail1, hd1, hm1⟩ := declare_decls t d
    obtain ⟨txt2, tail2, hs2, hd2, hm2⟩ :=
      declareOptions_decls rest (i + 1)
        (s ++ "    Option" ++ Nat.repr i ++ "(" ++ (DataType.declare t d).1 ++ "),\n")
        (DataType.declare t d).2
    refine ⟨"    Option" ++ Nat.repr i ++ "(" ++ (DataType.declare t d).1 ++ "),\n" ++ txt2,
      tail1 ++ tail2, ?_, ?_, ?_⟩
    · rw [hs2]
      simp [str_assoc]
    · rw [hd2, hd1, List.append_assoc]
    · rw [List.map_append, hm1, hm2, optionsPush, List.map_append, declare_next t d]
end

theorem declare_name_composite (t : DataType) (d : Decls) (h : t.isComposite = true) :
    (DataType.declare t d).1 = declName d.next_index := by
  cases t <;> first | (simp [DataType.isComposite] at h; done) | rfl

theorem pushIdxs_composite (t : DataType) (n : Nat) (h : t.isComposite = true) :
    ∃ inner, pushIdxs t n = inner ++ [n] ∧ ∀ i ∈ inner, n < i := by
  cases t with
  | object fs =>
    refine ⟨fieldsPush fs (n + 1), rfl, fun i hi => ?_⟩
    have hm := ((fieldsPush_perm fs (n + 1)).mem_iff).mp hi
    rw [List.mem_range'_1] at hm
    omega
  | variant os =>
    refine ⟨optionsPush os (n + 1), rfl, fun i hi => ?_⟩
    have hm := ((optionsPush_perm os (n + 1)).mem_iff).mp hi
    rw [List.mem_range'_1] at hm
    omega
  | null => simp [DataType.isComposite] at h
  | string => simp [DataType.isComposite] at h
  | int => simp [DataType.isComposite] at h
  | float => simp [DataType.isComposite] at h
  | bool => simp [DataType.isComposite] at h
  | array e => simp [DataType.isComposite] at h

/-- C6: for every type value `t` and starting accumulator `d`, `declare`
terminates (it is a total function of the embedding) and appends exactly one
declaration per composite (`Object`/`Variant`) node occurrence reachable in
`t` (`compCount t` of them), and no two declarations emitted in the run
carry the same name. -/
theorem claim6 (t : DataType) (d : Decls) :
    ∃ tail, (DataType.declare t d).2.decls = d.decls ++ tail ∧
      tail.length = compCount t ∧ (tail.map nameOf).Nodup := by
  obtain ⟨tail, h1, h2⟩ := declare_decls t d
  refine ⟨tail, h1, ?_, ?_⟩
  · have hl := congrArg List.length h2
    simp only [List.length_map] at hl
    rw [hl, (pushIdxs_perm t d.next_index).length_eq, List.length_range']
  · rw [h2]
    refine List.Nodup.map (fun a b hab => declName_injective hab) ?_
    exact ((pushIdxs_perm t d.next_index).nodup_iff).mpr (by simp [List.nodup_range'])

/-- C7 counterexample: the fresh names have the form `Data0`, `Data1`, …,
not `Type0`, `Type1`, …: declaring an empty object emits `struct Data0`
and returns the name `Data0`, which differs from `Type0`. -/
theorem claim7_counterexample :
    (DataType.declare (.object []) ⟨0, []⟩).1 = "Data0" ∧
      (DataType.declare (.object []) ⟨0, []⟩).1 ≠ "Type0" ∧
      (DataType.declare (.object []) ⟨0, []⟩).2.decls = ["struct Data0 \x7b\n\x7d"] := by
  decide

/-- C7 (amended): every composite node is assigned a fresh sequential name
of the form `Data0`, `Data1`, … (`declName`), in the order the composite
nodes are first visited during the top-down traversal: the first-visit
(pre-order) index sequence starting at `d.next_index` is exactly
`next_index, next_index + 1, …`; the emitted declarations carry exactly
those names (in push order, a permutation of first-visit order), and a
composite root is referred to by the first index's name. -/
theorem claim7_amended (t : DataType) (d : Decls) :
    preIdxs t d.next_index = List.range' d.next_index (compCount t) ∧
      (pushIdxs t d.next_index).Perm (preIdxs t d.next_index) ∧
      ∃ tail, (DataType.declare t d).2.decls = d.decls ++ tail ∧
        tail.map nameOf = (pushIdxs t d.next_index).map declName ∧
        (t.isComposite = true → (DataType.declare t d).1 = declName d.next_index) := by
  refine ⟨preIdxs_range t d.next_index, ?_, ?_⟩
  · rw [preIdxs_range]
    exact pushIdxs_perm t d.next_index
  · obtain ⟨tail, h1, h2⟩ := declare_decls t d
    exact ⟨tail, h1, h2, fun h => declare_name_composite t d h⟩

/-- C8: name indices are assigned pre-order but declaration strings are
pushed post-order: for a composite root, its own declaration (named with
the index assigned on entry, `d.next_index`) is the *last* string appended,
after the declarations of all composite nodes nested inside it, and every
nested declaration's name index is strictly larger than the root's. -/
theorem claim8 (t : DataType) (d : Decls) (h : t.isComposite = true) :
    ∃ pre own, (DataType.declare t d).2.decls = d.decls ++ pre ++ [own] ∧
      nameOf own = declName d.next_index ∧
      ∀ s ∈ pre, ∃ i, nameOf s = declName i ∧ d.next_index < i := by
  obtain ⟨tail, h1, h2⟩ := declare_decls t d
  obtain ⟨inner, hi, hgt⟩ := pushIdxs_composite t d.next_index h
  rw [hi, List.map_append] at h2
  rw [List.map_eq_append_iff] at h2
  obtain ⟨pre, ownl, htail, hpre, hown⟩ := h2
  cases ownl with
  | nil => simp at hown
  | cons a l =>
    cases l with
    | cons b l2 => simp at hown
    | nil =>
      simp only [List.map_cons, List.map_nil, List.cons.injEq, and_true] at hown
      refine ⟨pre, a, ?_, hown, ?_⟩
      · rw [h1, htail, List.append_assoc]
      · intro s hs
        have hm : nameOf s ∈ pre.map nameOf := List.mem_map.mpr ⟨s, hs, rfl⟩
        rw [hpre] at hm
        obtain ⟨i, hi2, hnm⟩ := List.mem_map.mp hm
        exact ⟨i, hnm.symm, hgt i hi2⟩

theorem claim8_witness :
    DataType.isComposite (.object [("a", .variant [])]) = true ∧
      ∃ pre own,
        (DataType.declare (.object [("a", .variant [])]) ⟨0, []⟩).2.decls =
          (⟨0, []⟩ : Decls).decls ++ pre ++ [own] ∧
        nameOf own = declName (⟨0, []⟩ : Decls).next_index ∧
        ∀ s ∈ pre, ∃ i, nameOf s = declName i ∧ (⟨0, []⟩ : Decls).next_index < i :=
  ⟨rfl, claim8 (.object [("a", .variant [])]) ⟨0, []⟩ rfl⟩

/-- C10: declaring the empty `Variant` (the "unknown" type, inferred e.g.
as the element type of an empty JSON array) is not a no-op: it consumes one
fresh name index and appends an enum declaration with zero options, and it
returns the fresh `Data{n}` name as the reference (not a primitive name). -/
theorem claim10 (d : Decls) :
    DataType.declare (.variant []) d =
      (declName d.next_index,
        ⟨d.next_index + 1,
          d.decls ++ [("enum " ++ declName d.next_index) ++ " \x7b\n\x7d"]⟩) ∧
      DataType.fromJsonValue (.array []) = .array (.variant []) := by
  constructor
  · have hs : ((("enum " ++ ("Data" ++ Nat.repr d.next_index)) ++ " \x7b\n") ++ "\x7d") =
        ("enum " ++ declName d.next_index) ++ " \x7b\n\x7d" := by
      apply String.ext
      simp only [String.data_append, List.append_assoc]
      rfl
    simp only [DataType.declare, declareOptions]
    rw [hs]
    rfl
  · simp [DataType.fromJsonValue]
